import Mathlib

/-!
The ha_redis engine: a MySQL storage engine backed by one Redis list per table.

Shallow embedding of `src/redis/ha_redis.cc` and `src/redis/ha_redis.h`.

* A byte string (`std::string`, MySQL `String`, `char *`) is a `List Char`.
* `c_str` is the view of a `std::string` through `c_str()` or of a reply through
  `char *`: the bytes before the first NUL.
* `size_t` arithmetic that can wrap on ordinary inputs (`pos - last_pos` in the field
  loops, `current_position - 1` in the LSET and LINDEX commands) is done modulo `2^64`.
  Quantities bounded by the length of a string or of a Redis list (`pos`, `last_pos`,
  the LLEN reply) are natural numbers: a bulk string is shorter than `2^31` bytes and a
  list shorter than `2^63` elements, so `int last_pos` and `unsigned long l` hold them
  exactly.
* hiredis and the Redis server are not part of the repository; `redisvFormatCommand`
  and `redisExec` describe their documented behaviour on the list commands the row
  operations send (RPUSH, LSET, LREM, LLEN, LINDEX).
* `Field::store` belongs to MySQL; a field is taken to keep the bytes it is handed.
-/

namespace HaRedis

/-- A byte string. -/
abbrev Bytes := List Char

/-- The modulus of `unsigned long` and `size_t` arithmetic. -/
def ULONG : Nat := 18446744073709551616

/-- The difference `a - b` of two `size_t` (or `unsigned long`) values, both below
`2^64`, as the machine computes it: it wraps around when `a < b`. -/
def sub_size_t (a b : Nat) : Nat := if b ≤ a then a - b else ULONG - (b - a)

/-- The bytes seen through `c_str()` or a `char *`: everything before the first NUL. -/
def c_str (s : Bytes) : Bytes := s.takeWhile (fun c => c != '\x00')

/-! ## Record codec -/

/-- A column of the open table as the engine sees it: the NULL flag, the text `val_str`
yields for the current content, and the text it yields after `set_default`. -/
structure Field where
  is_null : Bool
  value : Bytes
  default_value : Bytes
deriving DecidableEq, Repr

/-- The body of the `for (Field **field ...)` loop of `write_row` and `update_row`:
every byte of the attribute is appended to `record_str`, then one `","`. -/
def append_attribute (record_str : Bytes) (attr : Bytes) : Bytes :=
  record_str ++ attr ++ [',']

/-- The value of `record_str` after the loop over the attribute texts and the final
`record_str.pop_back()`.  A table has at least one column, so the string is never empty
when `pop_back` runs. -/
def build_record (attrs : List Bytes) : Bytes :=
  (attrs.foldl append_attribute []).dropLast

/-- The attribute texts `write_row` reads: `val_str` of every field. -/
def write_row_attributes (table : List Field) : List Bytes :=
  table.map (fun f => f.value)

/-- The attribute texts `update_row` reads: a NULL field is set to its default before
`val_str` (and set back to NULL afterwards), any other field is read as it is. -/
def update_row_attributes (table : List Field) : List Bytes :=
  table.map (fun f => if f.is_null then f.default_value else f.value)

/-- The result of `r.find(",", pos)` for `std::string r`: the first index `>= pos`
holding the byte, `none` for `npos` (also when `pos > r.length()`). -/
def find (r : Bytes) (ch : Char) (pos : Nat) : Option Nat :=
  let i := (r.drop pos).indexOf ch
  if pos + i < r.length then some (pos + i) else none

/-- One `Field::store(&buffer[last_pos], pos - last_pos, ...)` call: the offset into
`buffer` and the length argument. -/
structure StoreCall where
  offset : Nat
  length : Nat
deriving DecidableEq, Repr

/-- The field loop of `rnd_next` (lines 416-424) over `nfields` fields, entered with
the given `last_pos`: one store call per field. -/
def field_loop (r : Bytes) : Nat → Nat → List StoreCall
  | 0, _ => []
  | n + 1, last_pos =>
    let pos := match find r ',' last_pos with
      | some p => p
      | none => r.length
    ⟨last_pos, sub_size_t pos last_pos⟩ :: field_loop r n (pos + 1)

/-- The bytes a store call hands to the field: `length` bytes of `buffer` from `offset`,
or `none` when that range is not inside the buffer. -/
def stored_value (buffer : Bytes) (c : StoreCall) : Option Bytes :=
  if c.offset + c.length ≤ buffer.length then some ((buffer.drop c.offset).take c.length)
  else none

/-- What the fields receive when the field loop of `rnd_next` runs over the line held by
both `r` and `buffer`. -/
def decode (line : Bytes) (nfields : Nat) : List (Option Bytes) :=
  (field_loop line nfields 0).map (stored_value line)


/-- The field loop of `rnd_pos` (lines 490-500): a field that is neither covered by
`read_all` nor set in `read_set` is skipped, and `last_pos` then stays where it is. -/
def field_loop_pos (r : Bytes) (read_all : Bool) : List Bool → Nat → List (Option StoreCall)
  | [], _ => []
  | in_read_set :: fields, last_pos =>
    if read_all || in_read_set then
      let p := match find r ',' last_pos with
        | some q => q
        | none => r.length
      some ⟨last_pos, sub_size_t p last_pos⟩ :: field_loop_pos r read_all fields (p + 1)
    else
      none :: field_loop_pos r read_all fields last_pos

/-! ## hiredis and the Redis server -/

/-- A `redisReply`. -/
inductive Reply where
  | integer (v : Nat)
  | string (s : Bytes)
  | status (s : Bytes)
  | error (s : Bytes)
  | nil
deriving DecidableEq, Repr

/-- The member `integer` of a reply: the value of an integer reply, `0` in every other
reply (the object is zero-initialised). -/
def Reply.integer_member : Reply → Nat
  | .integer v => v
  | _ => 0

/-- The member `str` of a reply: the text of a string, status or error reply, a null
pointer (`none`) in an integer or nil reply. -/
def Reply.str_member : Reply → Option Bytes
  | .string s => some s
  | .status s => some s
  | .error s => some s
  | _ => none

/-- What the argument scanner of hiredis makes of a format string when no variadic
argument is passed: the arguments to send; `invalid` when it rejects the format
(`format_err`, `redisCommand` then returns a null pointer and sends nothing);
`undefined` when a conversion reads a variadic argument, which the engine never passes. -/
inductive Formatted where
  | args (argv : List Bytes)
  | invalid
  | undefined
deriving DecidableEq, Repr

/-- Is the byte at the head of `r` one of the integer conversions `diouxX`? -/
def int_conversion_follows (r : List Char) : Bool :=
  match r with
  | [] => false
  | y :: _ => "diouxX".toList.contains y

/-- The bytes after a `%` that is followed neither by `%` nor by the end of the string:
does hiredis reject the conversion (`fmt_invalid`)?  `%s`, `%b` and every printf
conversion it recognises (flags `#0-+ `, width, precision, then one of `diouxX` or
`eEfFgGaA`, an integer conversion also after `hh`, `h`, `ll` or `l`) are accepted and
read a variadic argument; anything else is rejected. -/
def conversion_rejected (after : List Char) : Bool :=
  if after.head? = some 's' ∨ after.head? = some 'b' then false
  else
    let p1 := after.dropWhile (fun x => "#0-+ ".toList.contains x)
    let p2 := p1.dropWhile Char.isDigit
    let p3 := if p2.head? = some '.' then p2.tail.dropWhile Char.isDigit else p2
    match p3 with
    | [] => false
    | x :: r =>
      if "diouxX".toList.contains x ∨ "eEfFgGaA".toList.contains x then false
      else if x = 'h' then
        if r.head? = some 'h' then !int_conversion_follows r.tail
        else !int_conversion_follows r
      else if x = 'l' then
        if r.head? = some 'l' then !int_conversion_follows r.tail
        else !int_conversion_follows r
      else true

/-- The argument scanner of hiredis (`redisvFormatCommand`) run over a format string
with no variadic arguments: a blank ends the current argument, `%%` stands for one `%`,
a `%` that is the last byte is literal.  Any other `%` starts a conversion, which is
either rejected or reads an argument that was not passed. -/
def format_loop : List Char → Bytes → Bool → List Bytes → Formatted
  | [], curarg, touched, argv => .args (if touched then argv ++ [curarg] else argv)
  | [c], curarg, touched, argv =>
    if c = ' ' then .args (if touched then argv ++ [curarg] else argv)
    else .args (argv ++ [curarg ++ [c]])
  | c :: d :: cs, curarg, touched, argv =>
    if c = '%' then
      if d = '%' then format_loop cs (curarg ++ ['%']) true argv
      else if conversion_rejected (d :: cs) then .invalid
      else .undefined
    else if c = ' ' then
      if touched then format_loop (d :: cs) [] false (argv ++ [curarg])
      else format_loop (d :: cs) curarg false argv
    else format_loop (d :: cs) (curarg ++ [c]) true argv

/-- The outcome of `redisvFormatCommand` for `redisCommand(c, format)` when no variadic
argument is passed. -/
def redisvFormatCommand (format : Bytes) : Formatted :=
  format_loop format [] false []

/-- The decimal text of `std::to_string` for an unsigned value. -/
def to_string (n : Nat) : Bytes := Nat.toDigits 10 n

/-- The value of a decimal digit byte. -/
def digit_value (c : Char) : Nat := c.toNat - 48

/-- The number a run of decimal digits denotes. -/
def decimal_value (ds : Bytes) : Nat := ds.foldl (fun a c => 10 * a + digit_value c) 0

/-- Redis reads an index or a count with `string2ll`: only the canonical decimal text of
a signed 64-bit integer is accepted (no blanks, no leading zeros, no `-0`). -/
def string2ll (s : Bytes) : Option Int :=
  if s.head? = some '-' then
    let v := decimal_value s.tail
    if s.tail = to_string v ∧ 1 ≤ v ∧ v ≤ 9223372036854775808 then some (-(v : Int)) else none
  else
    let v := decimal_value s
    if s = to_string v ∧ v < 9223372036854775808 then some (v : Int) else none

/-- The element an index of LINDEX or LSET denotes in a list of the given length: a
negative index counts from the tail; `none` when it is out of range. -/
def list_index (len : Nat) (i : Int) : Option Nat :=
  let j := if i < 0 then i + (len : Int) else i
  if 0 ≤ j ∧ j < (len : Int) then some j.toNat else none

/-- Removal of the first `n` elements equal to `v`. -/
def remove_first (v : Bytes) : Nat → List Bytes → List Bytes
  | 0, l => l
  | _ + 1, [] => []
  | n + 1, x :: xs => if x = v then remove_first v n xs else x :: remove_first v (n + 1) xs

/-- The list LREM leaves: a count of 0 removes every element equal to `v`, a positive
count the first ones from the head, a negative count the first ones from the tail. -/
def lrem (count : Int) (v : Bytes) (l : List Bytes) : List Bytes :=
  if count = 0 then l.filter (fun x => x != v)
  else if 0 < count then remove_first v count.toNat l
  else (remove_first v (-count).toNat l.reverse).reverse

/-- The keyspace of the server as far as the engine uses it: every key holds a list, a
key that does not exist holds the empty list. -/
abbrev Store := Bytes → List Bytes

/-- The keyspace after the list of one key is replaced. -/
def Store.set (st : Store) (key : Bytes) (l : List Bytes) : Store :=
  fun k => if k = key then l else st k

/-- The error reply for a wrong number of arguments. -/
def err_wrong_args : Reply := .error "ERR wrong number of arguments".toList

/-- The error reply for an index or count that `string2ll` rejects. -/
def err_not_integer : Reply := .error "ERR value is not an integer or out of range".toList

/-- The Redis server on the list commands the row operations send: the reply and the new
keyspace. -/
def redisExec (argv : List Bytes) (st : Store) : Reply × Store :=
  match argv with
  | [] => (.error "ERR empty command".toList, st)
  | name :: args =>
    if name = "RPUSH".toList then
      match args with
      | key :: v :: vs =>
        let l := st key ++ v :: vs
        (.integer l.length, st.set key l)
      | _ => (err_wrong_args, st)
    else if name = "LLEN".toList then
      match args with
      | [key] => (.integer (st key).length, st)
      | _ => (err_wrong_args, st)
    else if name = "LINDEX".toList then
      match args with
      | [key, idx] =>
        if st key = [] then (.nil, st)
        else match string2ll idx with
          | none => (err_not_integer, st)
          | some i =>
            match list_index (st key).length i with
            | none => (.nil, st)
            | some j => (.string ((st key).getD j []), st)
      | _ => (err_wrong_args, st)
    else if name = "LSET".toList then
      match args with
      | [key, idx, v] =>
        if st key = [] then (.error "ERR no such key".toList, st)
        else match string2ll idx with
          | none => (err_not_integer, st)
          | some i =>
            match list_index (st key).length i with
            | none => (.error "ERR index out of range".toList, st)
            | some j => (.status "OK".toList, st.set key ((st key).set j v))
      | _ => (err_wrong_args, st)
    else if name = "LREM".toList then
      match args with
      | [key, count, v] =>
        match string2ll count with
        | none => (err_not_integer, st)
        | some n =>
          let l := lrem n v (st key)
          (.integer ((st key).length - l.length), st.set key l)
      | _ => (err_wrong_args, st)
    else (.error "ERR unknown command".toList, st)

/-- The Redis server together with the record of what the context `c` has sent: the
argument vector of every command, in order. -/
structure World where
  store : Store
  log : List (List Bytes)

/-- What a call of `redisCommand` gives back: the reply of the server, together with
the server after the command; a null pointer, when hiredis rejects the format and sends
nothing; or nothing defined, when the format reads a variadic argument. -/
inductive Sent where
  | reply (r : Reply) (w : World)
  | null
  | undefined

/-- The call `redisCommand(c, cmd.c_str())`: the command text is the format string. -/
def redisCommand (w : World) (cmd : Bytes) : Sent :=
  match redisvFormatCommand (c_str cmd) with
  | .undefined => .undefined
  | .invalid => .null
  | .args argv =>
    let res := redisExec argv w.store
    .reply res.1 { store := res.2, log := w.log ++ [argv] }

/-! ## The handler -/

/-- The value of `HA_ERR_WRONG_COMMAND` in MySQL (`my_base.h`). -/
def HA_ERR_WRONG_COMMAND : Int := 131

/-- The value of `HA_ERR_END_OF_FILE` in MySQL (`my_base.h`). -/
def HA_ERR_END_OF_FILE : Int := 137

/-- The state of one `ha_redis` handler: `share->table_name`, `current_position`,
`buffer`, `stats.records`, the position bytes `ref` (as the number they hold) and the
number of entries of `table->field`. -/
structure Handler where
  table_name : Bytes
  current_position : Nat
  buffer : Bytes
  records : Nat
  ref : Nat
  nfields : Nat
deriving DecidableEq, Repr

/-- The outcome of a row operation that reads nothing: return code, handler, server. -/
structure Outcome where
  rc : Int
  handler : Handler
  world : World

/-- The outcome of `rnd_next` and `rnd_pos`: besides the return code, the store call
each field received (`none` for a field the loop skipped). -/
structure Fetch where
  rc : Int
  calls : List (Option StoreCall)
  handler : Handler
  world : World

/-- The bytes every field received in a fetch, read from the handler's `buffer`. -/
def Fetch.values (f : Fetch) : List (Option Bytes) :=
  f.calls.map (fun c => c.bind (stored_value f.handler.buffer))

/-- The result of `s.find_last_of("/")`. -/
def find_last_of (s : Bytes) (ch : Char) : Option Nat :=
  let i := s.reverse.indexOf ch
  if i < s.length then some (s.length - 1 - i) else none

/-- The member function `get_table_name` of `ha_redis.h`. -/
def get_table_name (tname : Bytes) : Bytes :=
  let s := c_str tname
  match find_last_of s '/' with
  | some pos => c_str ((s.drop (pos + 1)).take (s.length - (pos + 1)))
  | none => c_str tname

/-- The method `open` with a server that accepts the connection. -/
def ha_open (h : Handler) (tname : Bytes) : Int × Handler :=
  (0, { h with table_name := get_table_name tname })

/-- The string `cmd` of `write_row`:
`"RPUSH " + share->table_name += " " + record_str`, where `+=` acts on the temporary
`"RPUSH " + share->table_name`. -/
def write_row_cmd (h : Handler) (table : List Field) : Bytes :=
  ("RPUSH ".toList ++ h.table_name) ++
    (" ".toList ++ build_record (write_row_attributes table))

/-- The method `write_row`.  A null reply is skipped by `if(ret)`: the method counts the
row and returns 0 all the same. -/
def write_row (h : Handler) (w : World) (table : List Field) : Option Outcome :=
  match redisCommand w (write_row_cmd h table) with
  | .undefined => none
  | .null => some ⟨0, { h with records := h.records + 1 }, w⟩
  | .reply _ w1 => some ⟨0, { h with records := h.records + 1 }, w1⟩

/-- The string `cmd` of `update_row`. -/
def update_row_cmd (h : Handler) (table : List Field) : Bytes :=
  ("LSET ".toList ++ h.table_name) ++
    (" ".toList ++ to_string (sub_size_t h.current_position 1) ++ " ".toList ++
      build_record (update_row_attributes table))

/-- The method `update_row`.  A null reply is skipped by `if(ret)`. -/
def update_row (h : Handler) (w : World) (table : List Field) : Option Outcome :=
  match redisCommand w (update_row_cmd h table) with
  | .undefined => none
  | .null => some ⟨0, h, w⟩
  | .reply _ w1 => some ⟨0, h, w1⟩

/-- The string `cmd` of `delete_row`. -/
def delete_row_cmd (h : Handler) : Bytes :=
  ("LSET ".toList ++ h.table_name) ++
    (" ".toList ++ to_string (sub_size_t h.current_position 1) ++ " ,".toList)

/-- The method `delete_row`.  A null reply is skipped by `if(ret)`. -/
def delete_row (h : Handler) (w : World) : Option Outcome :=
  match redisCommand w (delete_row_cmd h) with
  | .undefined => none
  | .null => some ⟨0, h, w⟩
  | .reply _ w1 => some ⟨0, h, w1⟩

/-- The method `rnd_init`. -/
def rnd_init (h : Handler) (w : World) : Outcome :=
  ⟨0, { h with current_position := 0, records := 0 }, w⟩

/-- The method `rnd_end`.  It reads `rr->integer` without a check: with a null reply the
behaviour is not defined (`none`). -/
def rnd_end (h : Handler) (w : World) : Option Outcome :=
  let cmd := "LREM ".toList ++ h.table_name ++ " 0 ,".toList
  match redisCommand w cmd with
  | .undefined => none
  | .null => none
  | .reply _ w1 => some ⟨0, { h with current_position := 0 }, w1⟩

/-- The method `rnd_next`.  `none` when a reply is a null pointer (it is read without a
check) or the reply to LINDEX has no text (`rr->str` is a null pointer). -/
def rnd_next (h : Handler) (w : World) : Option Fetch :=
  match redisCommand w ("LLEN ".toList ++ h.table_name) with
  | .undefined => none
  | .null => none
  | .reply rlen w1 =>
    let l := rlen.integer_member
    if l = 0 ∨ h.current_position ≥ l then some ⟨HA_ERR_END_OF_FILE, [], h, w1⟩
    else
      match redisCommand w1
          ("LINDEX ".toList ++ h.table_name ++ " ".toList ++ to_string h.current_position) with
      | .undefined => none
      | .null => none
      | .reply rr w2 =>
        match rr.str_member with
        | none => none
        | some s =>
          let r := c_str s
          some ⟨0, (field_loop r h.nfields 0).map some,
            { h with buffer := c_str r, current_position := h.current_position + 1,
                     records := h.records + 1 }, w2⟩

/-- The method `position`: `my_store_ptr(ref, ref_length, current_position)`. -/
def position (h : Handler) : Handler :=
  { h with ref := h.current_position }

/-- The method `rnd_pos`; `pos` is the number `my_get_ptr(pos, ref_length)` reads,
`read_all` is `!bitmap_is_clear_all(table->write_set)` and `read_set` tells for every
field whether its bit is set in `table->read_set`. -/
def rnd_pos (h : Handler) (w : World) (pos : Nat) (read_all : Bool) (read_set : List Bool) :
    Option Fetch :=
  let h1 := { h with current_position := pos }
  match redisCommand w ("LLEN ".toList ++ h.table_name) with
  | .undefined => none
  | .null => none
  | .reply rlen w1 =>
    let l := rlen.integer_member
    if l = 0 ∨ h1.current_position > l then some ⟨HA_ERR_END_OF_FILE, [], h1, w1⟩
    else
      match redisCommand w1
          ("LINDEX ".toList ++ h.table_name ++ " ".toList ++
            to_string (sub_size_t h1.current_position 1)) with
      | .undefined => none
      | .null => none
      | .reply rr w2 =>
        match rr.str_member with
        | none => none
        | some s =>
          let r := c_str s
          some ⟨0, field_loop_pos r read_all read_set 0, { h1 with buffer := c_str r }, w2⟩

/-- The method `rename_table`. -/
def rename_table (h : Handler) (w : World) (_from _to : Bytes) : Outcome :=
  ⟨HA_ERR_WRONG_COMMAND, h, w⟩

/-- A world whose only non-empty list is the one stored under `key`. -/
def World.single (key : Bytes) (l : List Bytes) : World :=
  { store := fun k => if k = key then l else [], log := [] }

/-- A freshly constructed handler (`current_position(0)`) opened on a table. -/
def Handler.fresh (name : Bytes) (nfields : Nat) : Handler :=
  { table_name := name, current_position := 0, buffer := [], records := 0, ref := 0,
    nfields := nfields }

/-- The text is free of the bytes that `c_str()` and the argument scanner of hiredis
treat specially (NUL, blank, `%`): it reaches the server as one argument, unchanged. -/
abbrev Clean (t : Bytes) : Prop := ∀ c ∈ t, c ≠ ' ' ∧ c ≠ '%' ∧ c ≠ '\x00'

/-- A table name as MySQL hands it to the engine: a non-empty file-system-safe name. -/
abbrev KeyOk (name : Bytes) : Prop := name ≠ [] ∧ Clean name

/-- The arguments joined by single blanks. -/
def join_blank : List Bytes → Bytes
  | [] => []
  | [t] => t
  | t :: u :: ts => t ++ ' ' :: join_blank (u :: ts)

/-- The server after the context has sent one more command. -/
def World.sent (w : World) (argv : List Bytes) (st : Store) : World :=
  { store := st, log := w.log ++ [argv] }

/-- The caller's loop over `rnd_next`: `n` successive calls, with the fetch of each call
and the state after the last one. -/
def scan : Nat → Handler → World → Option (List Fetch × Handler × World)
  | 0, h, w => some ([], h, w)
  | n + 1, h, w =>
    match rnd_next h w with
    | none => none
    | some f =>
      match scan n f.handler f.world with
      | none => none
      | some (fs, h2, w2) => some (f :: fs, h2, w2)

/-- A table scan that deletes the row at position `p`: `rnd_init`, `p + 1` calls of
`rnd_next`, `delete_row` right after the last of them, then `rnd_end`. -/
def scan_delete (h : Handler) (w : World) (p : Nat) : Option Outcome :=
  match scan (p + 1) (rnd_init h w).handler (rnd_init h w).world with
  | none => none
  | some (_, h1, w1) =>
    match delete_row h1 w1 with
    | none => none
    | some o => rnd_end o.handler o.world

/-- One of the three row operations that build their command with
`"CMD " + share->table_name += ...`. -/
inductive RowOp where
  | write (table : List Field)
  | update (table : List Field)
  | delete

/-- The call of the method a `RowOp` stands for. -/
def RowOp.call (op : RowOp) (h : Handler) (w : World) : Option Outcome :=
  match op with
  | .write table => write_row h w table
  | .update table => update_row h w table
  | .delete => delete_row h w

/-- The command string the method of a `RowOp` builds. -/
def RowOp.cmd (op : RowOp) (h : Handler) : Bytes :=
  match op with
  | .write table => write_row_cmd h table
  | .update table => update_row_cmd h table
  | .delete => delete_row_cmd h

/-- A sequence of row operations on one handler, each on the state the previous one
left. -/
def run_ops : List RowOp → Handler → World → Option (Handler × World)
  | [], h, w => some (h, w)
  | op :: ops, h, w =>
    match op.call h w with
    | none => none
    | some o => run_ops ops o.handler o.world

/-! ## Lemmas on the record codec -/

theorem foldl_append_attribute (acc : Bytes) (attrs : List Bytes) :
    attrs.foldl append_attribute acc = acc ++ attrs.foldl append_attribute [] := by
  induction attrs generalizing acc with
  | nil => simp
  | cons a as ih =>
    simp only [List.foldl_cons]
    rw [ih (append_attribute acc a), ih (append_attribute [] a)]
    simp [append_attribute]

theorem build_record_single (s : Bytes) : build_record [s] = s := by
  simp [build_record, append_attribute]

theorem build_record_cons_cons (s t : Bytes) (rest : List Bytes) :
    build_record (s :: t :: rest) = s ++ ',' :: build_record (t :: rest) := by
  have h2 : (t :: rest).foldl append_attribute [] ≠ [] := by
    simp only [List.foldl_cons]
    rw [foldl_append_attribute]
    simp [append_attribute]
  unfold build_record
  rw [List.foldl_cons, foldl_append_attribute]
  have h1 : append_attribute [] s = s ++ [','] := by simp [append_attribute]
  rw [h1, List.dropLast_append_of_ne_nil _ h2]
  simp

theorem build_record_eq_intercalate (attrs : List Bytes) :
    build_record attrs = [','].intercalate attrs := by
  induction attrs with
  | nil => rfl
  | cons s rest ih =>
    cases rest with
    | nil => simp [build_record_single, List.intercalate]
    | cons t rest =>
      rw [build_record_cons_cons, ih]
      simp [List.intercalate]

theorem find_segment (pre seg rest : Bytes) (h : ',' ∉ seg) :
    find (pre ++ (seg ++ ',' :: rest)) ',' pre.length = some (pre.length + seg.length) := by
  unfold find
  simp only [List.drop_left]
  rw [List.indexOf_append_of_not_mem h, List.indexOf_cons_self]
  simp

theorem find_last_segment (pre seg : Bytes) (h : ',' ∉ seg) :
    find (pre ++ seg) ',' pre.length = none := by
  unfold find
  simp only [List.drop_left]
  rw [List.indexOf_eq_length.mpr h]
  simp

theorem find_past_end (r : Bytes) (pos : Nat) (h : r.length < pos) : find r ',' pos = none := by
  unfold find
  simp only [ite_eq_right_iff]
  intro h2
  omega

theorem sub_size_t_add (a b : Nat) : sub_size_t (a + b) a = b := by
  simp [sub_size_t]

/-- Once `last_pos` is beyond the end of the line, every further field gets a store call
whose range lies outside the buffer. -/
theorem field_loop_past_end (r : Bytes) (n last_pos : Nat) (h : r.length < last_pos) :
    (field_loop r n last_pos).map (stored_value r) = List.replicate n none := by
  induction n generalizing last_pos with
  | zero => rfl
  | succ k ih =>
    simp only [field_loop, find_past_end r last_pos h, List.map_cons, List.replicate_succ]
    rw [ih (r.length + 1) (by omega)]
    congr 1
    simp only [stored_value, sub_size_t, ULONG, ite_eq_right_iff]
    intro h2
    split at h2 <;> omega

/-- The field loop over a line made of the comma-free segments `segs`, entered at the
start of a segment: field `i` receives segment `i`; the fields after the last segment
receive a range outside the buffer. -/
theorem field_loop_segments (segs : List Bytes) (hne : segs ≠ [])
    (hfree : ∀ s ∈ segs, ',' ∉ s) (pre : Bytes) (n : Nat) :
    (field_loop (pre ++ build_record segs) n pre.length).map
        (stored_value (pre ++ build_record segs)) =
      (segs.take n).map some ++ List.replicate (n - segs.length) none := by
  induction segs generalizing pre n with
  | nil => exact absurd rfl hne
  | cons s rest ih =>
    cases n with
    | zero => simp [field_loop]
    | succ k =>
      have hs : ',' ∉ s := hfree s (List.mem_cons_self _ _)
      cases rest with
      | nil =>
        rw [build_record_single]
        simp only [field_loop, find_last_segment pre s hs, List.map_cons, List.take_succ_cons,
          List.take_nil, List.map_nil, List.length_singleton]
        rw [field_loop_past_end _ _ _ (by omega)]
        simp [stored_value, sub_size_t_add]
      | cons t rest =>
        rw [build_record_cons_cons]
        simp only [field_loop, find_segment pre s _ hs, List.map_cons, List.take_succ_cons]
        have hlen : pre.length + s.length + 1 = (pre ++ s ++ [',']).length := by
          simp [Nat.add_assoc]
        have hr : pre ++ (s ++ ',' :: build_record (t :: rest))
            = (pre ++ s ++ [',']) ++ build_record (t :: rest) := by simp
        rw [hlen, hr, ih (by simp) (fun x hx => hfree x (List.mem_cons_of_mem _ hx))]
        have e : stored_value (pre ++ s ++ [','] ++ build_record (t :: rest))
            ⟨pre.length, sub_size_t (pre.length + s.length) pre.length⟩ = some s := by
          simp [stored_value, sub_size_t_add]
        rw [e]
        simp

theorem decode_build_record (segs : List Bytes) (hne : segs ≠ [])
    (hfree : ∀ s ∈ segs, ',' ∉ s) (n : Nat) :
    decode (build_record segs) n =
      (segs.take n).map some ++ List.replicate (n - segs.length) none := by
  have h := field_loop_segments segs hne hfree [] n
  simpa [decode] using h

theorem splitOn_comma_free (line : Bytes) : ∀ s ∈ line.splitOn ',', ',' ∉ s := by
  induction line with
  | nil => simp
  | cons c cs ih =>
    intro s hs
    simp only [List.splitOn, List.splitOnP_cons] at hs ih
    split at hs
    · rename_i hc
      rcases List.mem_cons.mp hs with h | h
      · subst h; simp
      · exact ih s h
    · rename_i hc
      cases hsp : List.splitOnP (fun x => x == ',') cs with
      | nil => exact absurd hsp (List.splitOnP_ne_nil _ _)
      | cons hd tl =>
        rw [hsp] at hs ih
        simp only [List.modifyHead_cons, List.mem_cons] at hs
        rcases hs with h | h
        · subst h
          have h1 := ih hd (List.mem_cons_self _ _)
          simp only [beq_iff_eq] at hc
          intro hmem
          rcases List.mem_cons.mp hmem with h2 | h2
          · exact hc h2.symm
          · exact h1 h2
        · exact ih s (List.mem_cons_of_mem _ h)

theorem field_loop_length (r : Bytes) (n last_pos : Nat) :
    (field_loop r n last_pos).length = n := by
  induction n generalizing last_pos with
  | zero => rfl
  | succ k ih => simp [field_loop, ih]

theorem count_comma_build_record (attrs : List Bytes) (hne : attrs ≠ []) :
    (build_record attrs).count ',' =
      (attrs.length - 1) + (attrs.map (fun a => a.count ',')).sum := by
  induction attrs with
  | nil => exact absurd rfl hne
  | cons s rest ih =>
    cases rest with
    | nil => simp [build_record_single]
    | cons t rest =>
      rw [build_record_cons_cons, List.count_append, List.count_cons_self, ih (by simp)]
      simp only [List.length_cons, List.map_cons, List.sum_cons]
      omega

/-! ## Lemmas on the command texts -/

theorem c_str_of_no_nul (s : Bytes) (h : ∀ c ∈ s, c ≠ '\x00') : c_str s = s := by
  unfold c_str
  rw [List.takeWhile_eq_self_iff]
  intro c hc
  simpa using h c hc

theorem c_str_idem (s : Bytes) : c_str (c_str s) = c_str s := by
  apply c_str_of_no_nul
  intro c hc
  have := List.mem_takeWhile_imp hc
  simpa using this

theorem format_loop_char (c : Char) (rest cur : Bytes) (t : Bool) (argv : List Bytes)
    (h1 : c ≠ ' ') (h2 : c ≠ '%') :
    format_loop (c :: rest) cur t argv = format_loop rest (cur ++ [c]) true argv := by
  cases rest <;> simp [format_loop, h1, h2]

theorem format_loop_blank (rest cur : Bytes) (argv : List Bytes) :
    format_loop (' ' :: rest) cur true argv = format_loop rest [] false (argv ++ [cur]) := by
  cases rest <;> simp [format_loop]

theorem format_loop_token (tok rest : Bytes) (argv : List Bytes) (hc : Clean tok) :
    ∀ (cur : Bytes) (t : Bool), tok ≠ [] →
      format_loop (tok ++ rest) cur t argv = format_loop rest (cur ++ tok) true argv := by
  induction tok with
  | nil => intro _ _ h; exact absurd rfl h
  | cons c tl ih =>
    intro cur t _
    have hcc := hc c (List.mem_cons_self _ _)
    rw [List.cons_append, format_loop_char c _ cur t argv hcc.1 hcc.2.1]
    cases tl with
    | nil => simp
    | cons d tl2 =>
      rw [ih (fun x hx => hc x (List.mem_cons_of_mem _ hx)) (cur ++ [c]) true (by simp)]
      simp

theorem format_tokens (toks : List Bytes) (hne : toks ≠ [])
    (h : ∀ t ∈ toks, t ≠ [] ∧ Clean t) (argv : List Bytes) :
    format_loop (join_blank toks) [] false argv = .args (argv ++ toks) := by
  induction toks generalizing argv with
  | nil => exact absurd rfl hne
  | cons t rest ih =>
    have ht := h t (List.mem_cons_self _ _)
    cases rest with
    | nil =>
      have e := format_loop_token t [] argv ht.2 [] false ht.1
      simp only [List.append_nil, List.nil_append] at e
      simp [join_blank, e, format_loop]
    | cons u rest =>
      simp only [join_blank]
      rw [format_loop_token t _ argv ht.2 [] false ht.1, List.nil_append, format_loop_blank,
        ih (by simp) (fun x hx => h x (List.mem_cons_of_mem _ hx))]
      simp

theorem join_blank_no_nul (toks : List Bytes) (h : ∀ t ∈ toks, t ≠ [] ∧ Clean t) :
    ∀ c ∈ join_blank toks, c ≠ '\x00' := by
  induction toks with
  | nil => simp [join_blank]
  | cons t rest ih =>
    have ht := h t (List.mem_cons_self _ _)
    cases rest with
    | nil => intro c hc; exact (ht.2 c (by simpa [join_blank] using hc)).2.2
    | cons u rest =>
      intro c hc
      simp only [join_blank, List.mem_append, List.mem_cons] at hc
      rcases hc with hc | hc | hc
      · exact (ht.2 c hc).2.2
      · subst hc; decide
      · exact ih (fun x hx => h x (List.mem_cons_of_mem _ hx)) c hc

/-- A command text made of clean, non-empty arguments joined by blanks reaches the server
as exactly these arguments. -/
theorem redisCommand_tokens (w : World) (toks : List Bytes) (hne : toks ≠ [])
    (h : ∀ t ∈ toks, t ≠ [] ∧ Clean t) :
    redisCommand w (join_blank toks) =
      .reply (redisExec toks w.store).1 (w.sent toks (redisExec toks w.store).2) := by
  unfold redisCommand redisvFormatCommand
  rw [c_str_of_no_nul _ (join_blank_no_nul toks h), format_tokens toks hne h]
  simp [World.sent]

/-! ## Lemmas on decimal texts -/

theorem toDigitsCore_forall (P : Char → Prop) (hP : ∀ d, d < 10 → P (Nat.digitChar d)) :
    ∀ (fuel n : Nat) (ds : List Char), (∀ c ∈ ds, P c) →
      ∀ c ∈ Nat.toDigitsCore 10 fuel n ds, P c := by
  intro fuel
  induction fuel with
  | zero => intro n ds h; simpa [Nat.toDigitsCore] using h
  | succ k ih =>
    intro n ds h
    have hd : P (Nat.digitChar (n % 10)) := hP _ (Nat.mod_lt _ (by decide))
    have h2 : ∀ c ∈ Nat.digitChar (n % 10) :: ds, P c := by
      intro c hc
      rcases List.mem_cons.mp hc with e | e
      · rw [e]; exact hd
      · exact h c e
    simp only [Nat.toDigitsCore]
    split
    · exact h2
    · exact ih _ _ h2

theorem toDigitsCore_ne_nil :
    ∀ (fuel n : Nat) (ds : List Char), (0 < fuel ∨ ds ≠ []) →
      Nat.toDigitsCore 10 fuel n ds ≠ [] := by
  intro fuel
  induction fuel with
  | zero => intro n ds h; rcases h with h | h; · omega
            · simpa [Nat.toDigitsCore] using h
  | succ k ih =>
    intro n ds _
    simp only [Nat.toDigitsCore]
    split
    · simp
    · exact ih _ _ (Or.inr (by simp))

theorem digit_value_digitChar : ∀ d, d < 10 → digit_value (Nat.digitChar d) = d := by
  decide

theorem decimal_value_core :
    ∀ (fuel n : Nat) (ds : List Char), n < fuel →
      (Nat.toDigitsCore 10 fuel n ds).foldl (fun a c => 10 * a + digit_value c) 0 =
        ds.foldl (fun a c => 10 * a + digit_value c) n := by
  intro fuel
  induction fuel with
  | zero => intro n ds h; omega
  | succ k ih =>
    intro n ds h
    have hd := digit_value_digitChar (n % 10) (Nat.mod_lt _ (by decide))
    simp only [Nat.toDigitsCore]
    split
    · rename_i h0
      simp only [List.foldl_cons, hd]
      congr 1
      omega
    · rename_i h0
      rw [ih (n / 10) _ (by omega)]
      simp only [List.foldl_cons, hd]
      congr 1
      omega

theorem to_string_ne_nil (n : Nat) : to_string n ≠ [] :=
  toDigitsCore_ne_nil _ _ _ (Or.inl (Nat.succ_pos n))

theorem to_string_chars (n : Nat) :
    ∀ c ∈ to_string n, c ≠ ' ' ∧ c ≠ '%' ∧ c ≠ '\x00' ∧ c ≠ '-' ∧ c ≠ ',' :=
  toDigitsCore_forall _ (by decide) _ _ _ (by simp)

theorem to_string_clean (n : Nat) : to_string n ≠ [] ∧ Clean (to_string n) :=
  ⟨to_string_ne_nil n, fun c hc => ⟨(to_string_chars n c hc).1, (to_string_chars n c hc).2.1,
    (to_string_chars n c hc).2.2.1⟩⟩

theorem decimal_value_to_string (n : Nat) : decimal_value (to_string n) = n := by
  unfold decimal_value to_string Nat.toDigits
  rw [decimal_value_core _ _ _ (Nat.lt_succ_self n)]
  rfl

theorem string2ll_to_string (n : Nat) (h : n < 9223372036854775808) :
    string2ll (to_string n) = some (n : Int) := by
  have hhead : (to_string n).head? ≠ some '-' := by
    intro e
    have hm : '-' ∈ to_string n := List.mem_of_mem_head? e
    exact (to_string_chars n _ hm).2.2.2.1 rfl
  unfold string2ll
  rw [if_neg hhead]
  simp only [decimal_value_to_string]
  simp [h]

theorem list_index_nat (len n : Nat) (h : n < len) : list_index len (n : Int) = some n := by
  unfold list_index
  have h1 : ¬ ((n : Int) < 0) := by omega
  simp only [h1, if_false]
  have h2 : (0 : Int) ≤ (n : Int) ∧ (n : Int) < (len : Int) := by omega
  simp [h2]

/-! ## Lemmas on the handler methods -/

theorem redisExec_llen (key : Bytes) (st : Store) :
    redisExec ["LLEN".toList, key] st = (.integer (st key).length, st) := rfl

theorem redisExec_lindex (key : Bytes) (st : Store) (n : Nat) (h : n < (st key).length)
    (h63 : n < 9223372036854775808) :
    redisExec ["LINDEX".toList, key, to_string n] st = (.string ((st key).getD n []), st) := by
  have hne : st key ≠ [] := by intro e; rw [e] at h; simp at h
  have e : redisExec ["LINDEX".toList, key, to_string n] st =
      (if st key = [] then (Reply.nil, st)
        else match string2ll (to_string n) with
          | none => (err_not_integer, st)
          | some i =>
            match list_index (st key).length i with
            | none => (.nil, st)
            | some j => (.string ((st key).getD j []), st)) := rfl
  rw [e, if_neg hne, string2ll_to_string n h63]
  simp only [list_index_nat _ _ h]

theorem redisExec_lset (key v : Bytes) (st : Store) (n : Nat) (h : n < (st key).length)
    (h63 : n < 9223372036854775808) :
    redisExec ["LSET".toList, key, to_string n, v] st =
      (.status "OK".toList, st.set key ((st key).set n v)) := by
  have hne : st key ≠ [] := by intro e; rw [e] at h; simp at h
  have e : redisExec ["LSET".toList, key, to_string n, v] st =
      (if st key = [] then (.error "ERR no such key".toList, st)
        else match string2ll (to_string n) with
          | none => (err_not_integer, st)
          | some i =>
            match list_index (st key).length i with
            | none => (.error "ERR index out of range".toList, st)
            | some j => (.status "OK".toList, st.set key ((st key).set j v))) := rfl
  rw [e, if_neg hne, string2ll_to_string n h63]
  simp only [list_index_nat _ _ h]

theorem redisExec_lrem_all (key v : Bytes) (st : Store) :
    (redisExec ["LREM".toList, key, "0".toList, v] st).2 =
      st.set key ((st key).filter (fun x => x != v)) := rfl

theorem cmd_llen (name : Bytes) :
    "LLEN ".toList ++ name = join_blank ["LLEN".toList, name] := rfl

theorem cmd_lindex (name idx : Bytes) :
    "LINDEX ".toList ++ name ++ " ".toList ++ idx = join_blank ["LINDEX".toList, name, idx] := by
  simp [join_blank]

theorem cmd_lset (name idx v : Bytes) :
    ("LSET ".toList ++ name) ++ (" ".toList ++ idx ++ ' ' :: v) =
      join_blank ["LSET".toList, name, idx, v] := by
  simp [join_blank]

theorem cmd_lrem (name : Bytes) :
    "LREM ".toList ++ name ++ " 0 ,".toList =
      join_blank ["LREM".toList, name, "0".toList, ",".toList] := by
  simp [join_blank]

theorem redisCommand_llen (w : World) (name : Bytes) (hk : KeyOk name) :
    redisCommand w ("LLEN ".toList ++ name) =
      .reply (.integer (w.store name).length) (w.sent ["LLEN".toList, name] w.store) := by
  rw [cmd_llen, redisCommand_tokens w _ (by simp)]
  · rw [redisExec_llen]
  · intro t ht
    simp only [List.mem_cons, List.mem_singleton, List.not_mem_nil, or_false] at ht
    rcases ht with e | e
    · subst e; decide
    · subst e; exact hk

theorem redisCommand_lindex (w : World) (name : Bytes) (hk : KeyOk name) (n : Nat)
    (h : n < (w.store name).length) (h63 : n < 9223372036854775808) :
    redisCommand w ("LINDEX ".toList ++ name ++ " ".toList ++ to_string n) =
      .reply (.string ((w.store name).getD n []))
        (w.sent ["LINDEX".toList, name, to_string n] w.store) := by
  rw [cmd_lindex, redisCommand_tokens w _ (by simp)]
  · rw [redisExec_lindex name w.store n h h63]
  · intro t ht
    simp only [List.mem_cons, List.mem_singleton, List.not_mem_nil, or_false] at ht
    rcases ht with e | e | e
    · subst e; decide
    · subst e; exact hk
    · subst e; exact to_string_clean n

theorem redisCommand_lset (w : World) (name v : Bytes) (hk : KeyOk name)
    (hv : v ≠ [] ∧ Clean v) (n : Nat)
    (h : n < (w.store name).length) (h63 : n < 9223372036854775808) :
    redisCommand w (("LSET ".toList ++ name) ++ (" ".toList ++ to_string n ++ ' ' :: v)) =
      .reply (.status "OK".toList)
        (w.sent ["LSET".toList, name, to_string n, v]
          (w.store.set name ((w.store name).set n v))) := by
  rw [cmd_lset, redisCommand_tokens w _ (by simp)]
  · rw [redisExec_lset name v w.store n h h63]
  · intro t ht
    simp only [List.mem_cons, List.mem_singleton, List.not_mem_nil, or_false] at ht
    rcases ht with e | e | e | e
    · subst e; decide
    · subst e; exact hk
    · subst e; exact to_string_clean n
    · subst e; exact hv

theorem redisCommand_lrem (w : World) (name : Bytes) (hk : KeyOk name) :
    ∃ rep, redisCommand w ("LREM ".toList ++ name ++ " 0 ,".toList) =
      .reply rep (w.sent ["LREM".toList, name, "0".toList, ",".toList]
        (w.store.set name ((w.store name).filter (fun x => x != ",".toList)))) := by
  refine ⟨(redisExec ["LREM".toList, name, "0".toList, ",".toList] w.store).1, ?_⟩
  rw [cmd_lrem, redisCommand_tokens w _ (by simp)]
  · rw [redisExec_lrem_all]
  · intro t ht
    simp only [List.mem_cons, List.mem_singleton, List.not_mem_nil, or_false] at ht
    rcases ht with e | e | e | e
    · subst e; decide
    · subst e; exact hk
    · subst e; decide
    · subst e; decide

theorem rnd_next_ok (h : Handler) (w : World) (hk : KeyOk h.table_name)
    (hlt : h.current_position < (w.store h.table_name).length)
    (h63 : h.current_position < 9223372036854775808) :
    rnd_next h w =
      some ⟨0,
        (field_loop (c_str ((w.store h.table_name).getD h.current_position [])) h.nfields 0).map
          some,
        { h with buffer := c_str ((w.store h.table_name).getD h.current_position []),
                 current_position := h.current_position + 1,
                 records := h.records + 1 },
        (w.sent ["LLEN".toList, h.table_name] w.store).sent
          ["LINDEX".toList, h.table_name, to_string h.current_position] w.store⟩ := by
  unfold rnd_next
  rw [redisCommand_llen w _ hk]
  simp only [Reply.integer_member]
  have hcond : ¬ ((w.store h.table_name).length = 0 ∨
      h.current_position ≥ (w.store h.table_name).length) := by omega
  rw [if_neg hcond]
  have hl := redisCommand_lindex (w.sent ["LLEN".toList, h.table_name] w.store)
    h.table_name hk h.current_position hlt h63
  simp only [World.sent] at hl ⊢
  rw [hl]
  simp only [Reply.str_member, c_str_idem]

theorem values_of_field_loop (r : Bytes) (n : Nat) (h : Handler) (w : World) (rc : Int)
    (hb : h.buffer = r) :
    Fetch.values ⟨rc, (field_loop r n 0).map some, h, w⟩ = decode r n := by
  simp [Fetch.values, decode, hb, Function.comp_def]

theorem rnd_pos_eof (h : Handler) (w : World) (pos : Nat) (ra : Bool) (rs : List Bool)
    (hk : KeyOk h.table_name)
    (hend : (w.store h.table_name).length = 0 ∨ (w.store h.table_name).length < pos) :
    rnd_pos h w pos ra rs =
      some ⟨HA_ERR_END_OF_FILE, [], { h with current_position := pos },
        w.sent ["LLEN".toList, h.table_name] w.store⟩ := by
  unfold rnd_pos
  rw [redisCommand_llen w _ hk]
  simp only [Reply.integer_member]
  rw [if_pos (by omega)]

theorem rnd_pos_ok (h : Handler) (w : World) (pos : Nat) (ra : Bool) (rs : List Bool)
    (hk : KeyOk h.table_name) (h1 : 1 ≤ pos) (hle : pos ≤ (w.store h.table_name).length)
    (h63 : (w.store h.table_name).length ≤ 9223372036854775808) :
    rnd_pos h w pos ra rs =
      some ⟨0, field_loop_pos (c_str ((w.store h.table_name).getD (pos - 1) [])) ra rs 0,
        { h with current_position := pos,
                 buffer := c_str ((w.store h.table_name).getD (pos - 1) []) },
        (w.sent ["LLEN".toList, h.table_name] w.store).sent
          ["LINDEX".toList, h.table_name, to_string (pos - 1)] w.store⟩ := by
  unfold rnd_pos
  rw [redisCommand_llen w _ hk]
  simp only [Reply.integer_member]
  have hcond : ¬ ((w.store h.table_name).length = 0 ∨ pos > (w.store h.table_name).length) := by
    omega
  rw [if_neg hcond]
  have hsub : sub_size_t pos 1 = pos - 1 := by simp [sub_size_t, h1]
  rw [hsub]
  have hl := redisCommand_lindex (w.sent ["LLEN".toList, h.table_name] w.store)
    h.table_name hk (pos - 1) (by simp only [World.sent]; omega) (by omega)
  simp only [World.sent] at hl ⊢
  rw [hl]
  simp only [Reply.str_member, c_str_idem]

theorem delete_row_ok (h : Handler) (w : World) (hk : KeyOk h.table_name)
    (h1 : 1 ≤ h.current_position)
    (hle : h.current_position ≤ (w.store h.table_name).length)
    (h63 : (w.store h.table_name).length ≤ 9223372036854775808) :
    delete_row h w =
      some ⟨0, h, w.sent ["LSET".toList, h.table_name, to_string (h.current_position - 1),
        ",".toList]
        (w.store.set h.table_name
          ((w.store h.table_name).set (h.current_position - 1) ",".toList))⟩ := by
  unfold delete_row delete_row_cmd
  have hsub : sub_size_t h.current_position 1 = h.current_position - 1 := by
    simp [sub_size_t, h1]
  rw [hsub]
  have hl := redisCommand_lset w h.table_name ",".toList hk (by decide)
    (h.current_position - 1) (by omega) (by omega)
  have e : " ,".toList = ' ' :: ",".toList := rfl
  simp only [e, hl]

theorem rnd_end_ok (h : Handler) (w : World) (hk : KeyOk h.table_name) :
    rnd_end h w =
      some ⟨0, { h with current_position := 0 },
        w.sent ["LREM".toList, h.table_name, "0".toList, ",".toList]
          (w.store.set h.table_name
            ((w.store h.table_name).filter (fun x => x != ",".toList)))⟩ := by
  unfold rnd_end
  obtain ⟨rep, hr⟩ := redisCommand_lrem w h.table_name hk
  simp only [hr]

theorem Store.set_same (st : Store) (key : Bytes) (l : List Bytes) : (st.set key l) key = l := by
  simp [Store.set]

/-- A call of `rnd_next` before the end of the list: what the caller sees. -/
theorem rnd_next_ok_fetch (h : Handler) (w : World) (hk : KeyOk h.table_name)
    (hlt : h.current_position < (w.store h.table_name).length)
    (h63 : h.current_position < 9223372036854775808) :
    ∃ f, rnd_next h w = some f ∧ f.rc = 0 ∧
      f.values = decode (c_str ((w.store h.table_name).getD h.current_position [])) h.nfields ∧
      f.handler.table_name = h.table_name ∧
      f.handler.current_position = h.current_position + 1 ∧
      f.handler.nfields = h.nfields ∧ f.world.store = w.store :=
  ⟨_, rnd_next_ok h w hk hlt h63, rfl, values_of_field_loop _ _ _ _ _ rfl, rfl, rfl, rfl, rfl⟩

/-- The first `n` calls of `rnd_next` of a scan that has not reached the end succeed,
advance the position by `n` and leave the list as it is. -/
theorem scan_prefix (n : Nat) :
    ∀ (h : Handler) (w : World), KeyOk h.table_name →
      (w.store h.table_name).length ≤ 9223372036854775808 →
      h.current_position + n ≤ (w.store h.table_name).length →
      ∃ fs h2 w2, scan n h w = some (fs, h2, w2) ∧ h2.table_name = h.table_name ∧
        h2.current_position = h.current_position + n ∧ w2.store = w.store := by
  induction n with
  | zero => intro h w _ _ _; exact ⟨[], h, w, rfl, rfl, rfl, rfl⟩
  | succ k ih =>
    intro h w hk h63 hle
    obtain ⟨f, hn, _, _, ft, fc, _, fw⟩ := rnd_next_ok_fetch h w hk (by omega) (by omega)
    obtain ⟨fs, h2, w2, hs, ht, hc, hw⟩ := ih f.handler f.world (by rw [ft]; exact hk)
      (by rw [fw, ft]; exact h63) (by rw [fc, fw, ft]; omega)
    refine ⟨f :: fs, h2, w2, ?_, ht.trans ft, ?_, hw.trans fw⟩
    · rw [scan]; simp only [hn, hs]
    · rw [hc, fc]; omega

theorem set_filter_eraseIdx (t : Bytes) (rows : List Bytes) :
    ∀ (p : Nat), p < rows.length → t ∉ rows.eraseIdx p →
      (rows.set p t).filter (fun x => x != t) = rows.eraseIdx p := by
  induction rows with
  | nil => intro p hp; simp at hp
  | cons x xs ih =>
    intro p hp hother
    cases p with
    | zero =>
      simp only [List.set_cons_zero, List.eraseIdx_cons_zero] at hother ⊢
      rw [List.filter_cons_of_neg (by simp), List.filter_eq_self]
      intro a ha
      have : a ≠ t := fun e => hother (e ▸ ha)
      simpa using this
    | succ q =>
      simp only [List.set_cons_succ, List.eraseIdx_cons_succ, List.mem_cons, not_or] at hother ⊢
      have hx : x ≠ t := fun e => hother.1 e.symm
      rw [List.filter_cons_of_pos (by simpa using hx)]
      congr 1
      exact ih q (by simpa using hp) hother.2

theorem build_record_chars (fields : List Bytes) :
    ∀ c ∈ build_record fields, c = ',' ∨ ∃ f ∈ fields, c ∈ f := by
  induction fields with
  | nil => intro c hc; simp [build_record] at hc
  | cons s rest ih =>
    cases rest with
    | nil => intro c hc; rw [build_record_single] at hc; exact Or.inr ⟨s, by simp, hc⟩
    | cons t rest =>
      intro c hc
      rw [build_record_cons_cons] at hc
      simp only [List.mem_append, List.mem_cons] at hc
      rcases hc with hc | hc | hc
      · exact Or.inr ⟨s, by simp, hc⟩
      · exact Or.inl hc
      · rcases ih c hc with h | ⟨f, hf, hcf⟩
        · exact Or.inl h
        · exact Or.inr ⟨f, List.mem_cons_of_mem _ hf, hcf⟩

theorem c_str_build_record (fields : List Bytes) (h : ∀ f ∈ fields, '\x00' ∉ f) :
    c_str (build_record fields) = build_record fields := by
  apply c_str_of_no_nul
  intro c hc e
  rcases build_record_chars fields c hc with h1 | ⟨f, hf, hcf⟩
  · rw [e] at h1; exact absurd h1 (by decide)
  · rw [e] at hcf; exact h f hf hcf

/-- C8 (encoding): for every table with at least one column the record string of
`write_row` is the field texts in column order joined by single commas, `update_row`
builds the same string when no field is NULL, and the string holds exactly
(number of fields - 1) commas besides those inside the values. -/
theorem C8_encoding (table : List Field) (hne : table ≠ []) :
    build_record (write_row_attributes table) =
        [','].intercalate (table.map (fun f => f.value)) ∧
    ((∀ f ∈ table, f.is_null = false) →
      build_record (update_row_attributes table) =
        [','].intercalate (table.map (fun f => f.value))) ∧
    (build_record (write_row_attributes table)).count ',' =
      (table.length - 1) + (table.map (fun f => f.value.count ',')).sum := by
  refine ⟨build_record_eq_intercalate _, ?_, ?_⟩
  · intro hnull
    have h : update_row_attributes table = table.map (fun f => f.value) := by
      unfold update_row_attributes
      apply List.map_congr_left
      intro f hf
      simp [hnull f hf]
    rw [h]
    exact build_record_eq_intercalate _
  · have h := count_comma_build_record (write_row_attributes table)
      (by simpa [write_row_attributes] using hne)
    simpa [write_row_attributes, Function.comp_def] using h

theorem C8_encoding_witness :
    ([(⟨false, "a".toList, []⟩ : Field), ⟨false, "b,c".toList, []⟩] ≠ []) ∧
    build_record (write_row_attributes [⟨false, "a".toList, []⟩, ⟨false, "b,c".toList, []⟩]) =
      "a,b,c".toList ∧
    (build_record (write_row_attributes
      [⟨false, "a".toList, []⟩, ⟨false, "b,c".toList, []⟩])).count ',' = 2 :=
  ⟨by decide,
    (C8_encoding [⟨false, "a".toList, []⟩, ⟨false, "b,c".toList, []⟩] (by decide)).1.trans
      (by decide),
    (C8_encoding [⟨false, "a".toList, []⟩, ⟨false, "b,c".toList, []⟩] (by decide)).2.2.trans
      (by decide)⟩

/-- C9 (short-line decode), evaluation at the line `a` with two fields: the field loops
of `rnd_next` and `rnd_pos` give the second field the offset 2 and the length
`2^64 - 1`, a range outside the one-byte buffer, not an empty string. -/
theorem C9_short_line_store_calls :
    field_loop "a".toList 2 0 = [⟨0, 1⟩, ⟨2, 18446744073709551615⟩] ∧
    field_loop_pos "a".toList true [true, true] 0 =
      [some ⟨0, 1⟩, some ⟨2, 18446744073709551615⟩] ∧
    decode "a".toList 2 = [some "a".toList, none] ∧
    (rnd_next (Handler.fresh "t".toList 2) (World.single "t".toList ["a".toList])).map
      (fun f => (f.rc, f.calls)) =
      some (0, [some ⟨0, 1⟩, some ⟨2, 18446744073709551615⟩]) := by
  decide

/-- C10, counterexample: the line `a,b,c` decoded over two fields gives `a` and `b`;
the second piece stops at the second comma and `,c` is dropped. -/
theorem C10_last_piece_stops_at_delimiter :
    decode "a,b,c".toList 2 = [some "a".toList, some "b".toList] ∧
    decode "a,b,c".toList 2 ≠ [some "a".toList, some "b,c".toList] := by
  decide

/-- C10 as amended: decoding over `N` fields issues exactly `N` store calls, and when
the line has at least `N - 1` commas the fields receive the first `N` comma-separated
segments of the line: every piece, the last one too, ends at the next comma (or where
the line ends), so whatever follows the `N`-th comma is dropped. -/
theorem C10_arity_bounded_decode (line : Bytes) (N : Nat) :
    (decode line N).length = N ∧
    (N ≤ (line.splitOn ',').length →
      decode line N = ((line.splitOn ',').take N).map some) := by
  refine ⟨by simp [decode, field_loop_length], ?_⟩
  intro hN
  have hne : line.splitOn ',' ≠ [] := List.splitOnP_ne_nil _ _
  have h := decode_build_record (line.splitOn ',') hne (splitOn_comma_free line) N
  rw [build_record_eq_intercalate, List.intercalate_splitOn] at h
  rw [h, Nat.sub_eq_zero_of_le hN]
  simp

theorem C10_arity_bounded_decode_witness :
    2 ≤ ("a,b,c".toList.splitOn ',').length ∧
    decode "a,b,c".toList 2 = [some "a".toList, some "b".toList] :=
  ⟨by decide, ((C10_arity_bounded_decode "a,b,c".toList 2).2 (by decide)).trans (by decide)⟩

/-- C3, counterexample: a two-column table holds the rows `("", "")` and `("a", "b")`,
stored as `,` and `a,b`.  Deleting the second row during a scan and ending the scan
leaves the empty list: the first row, whose line equals the tombstone, is removed too. -/
theorem C3_live_row_equal_to_tombstone_is_lost :
    (scan_delete (Handler.fresh "t".toList 2)
        (World.single "t".toList [",".toList, "a,b".toList]) 1).map
      (fun o => o.world.store "t".toList) = some [] ∧
    [",".toList, "a,b".toList].eraseIdx 1 = [",".toList] := by
  decide

/-- C3 as amended: when no other row of the list is the text `,`, a scan that calls
`delete_row` right after the `rnd_next` that returned the row at position `p` and then
calls `rnd_end` leaves exactly the other rows, in their original order. -/
theorem C3_tombstone_then_compact (h : Handler) (w : World) (p : Nat)
    (hk : KeyOk h.table_name)
    (h63 : (w.store h.table_name).length ≤ 9223372036854775808)
    (hp : p < (w.store h.table_name).length)
    (hother : ",".toList ∉ (w.store h.table_name).eraseIdx p) :
    (scan_delete h w p).map (fun o => (o.rc, o.world.store h.table_name)) =
      some (0, (w.store h.table_name).eraseIdx p) := by
  obtain ⟨fs, h1, w1, hs, ht, hc, hw⟩ := scan_prefix (p + 1) (rnd_init h w).handler
    (rnd_init h w).world hk h63 (by simp only [rnd_init]; omega)
  have ht1 : h1.table_name = h.table_name := ht
  have hc1 : h1.current_position = p + 1 := by rw [hc]; simp [rnd_init]
  have hw1 : w1.store = w.store := hw
  have hd := delete_row_ok h1 w1 (by rw [ht1]; exact hk) (by omega)
    (by rw [hw1, ht1, hc1]; omega) (by rw [hw1, ht1]; exact h63)
  unfold scan_delete
  simp only [hs, hd]
  rw [rnd_end_ok _ _ (by rw [ht1]; exact hk)]
  simp only [Option.map_some', World.sent, Store.set_same, ht1, hc1, hw1, Nat.add_sub_cancel]
  rw [set_filter_eraseIdx _ _ p hp hother]

theorem C3_tombstone_then_compact_witness :
    (KeyOk "t".toList ∧ 1 < ["a".toList, "b".toList, "c".toList].length) ∧
    (scan_delete (Handler.fresh "t".toList 1)
        (World.single "t".toList ["a".toList, "b".toList, "c".toList]) 1).map
      (fun o => (o.rc, o.world.store "t".toList)) = some (0, ["a".toList, "c".toList]) :=
  ⟨⟨by decide, by decide⟩,
    (C3_tombstone_then_compact (Handler.fresh "t".toList 1)
      (World.single "t".toList ["a".toList, "b".toList, "c".toList]) 1
      (by decide) (by decide) (by decide) (by decide)).trans (by decide)⟩

/-- C4 (out-of-range read), evaluation at the list `[a]` and the token 0: the target
index `0 - 1` is `2^64 - 1`, far beyond the length 1, yet `rnd_pos` passes its guard,
sends LINDEX with that index and returns 0, the field holding the text of the error
reply. -/
theorem C4_rnd_pos_token_zero_reads :
    sub_size_t 0 1 = 18446744073709551615 ∧
    (rnd_pos (Handler.fresh "t".toList 1) (World.single "t".toList ["a".toList]) 0 true
        [true]).map (fun f => (f.rc, f.world.log, f.values)) =
      some (0,
        [["LLEN".toList, "t".toList],
          ["LINDEX".toList, "t".toList, "18446744073709551615".toList]],
        [some "ERR value is not an integer or out of range".toList]) := by
  decide

/-- C5 (unsupported rename): for every pair of names `rename_table` returns
`HA_ERR_WRONG_COMMAND` and sends nothing: the server (every list, so the lists under both
names, and the record of sent commands) and the handler (so the cursor position and the
table name) are unchanged. -/
theorem C5_rename_table_unsupported (h : Handler) (w : World) (a b : Bytes) :
    (rename_table h w a b).rc = HA_ERR_WRONG_COMMAND ∧
    (rename_table h w a b).world.log = w.log ∧
    (rename_table h w a b).world.store = w.store ∧
    (rename_table h w a b).world.store a = w.store a ∧
    (rename_table h w a b).world.store b = w.store b ∧
    (rename_table h w a b).handler = h ∧
    (rename_table h w a b).handler.current_position = h.current_position ∧
    (rename_table h w a b).handler.table_name = h.table_name :=
  ⟨rfl, rfl, rfl, rfl, rfl, rfl, rfl, rfl⟩

/-- C6, counterexample: the list is `[",", "a", "b"]`.  A cursor reads two rows, the second
being `a`, and `position` stores the token 2.  Another cursor on the same table runs
`rnd_end`, which removes the tombstone at index 0 and leaves `["a", "b"]`.  `rnd_pos` with
the stale token then returns 0 and delivers `b`, not `a`. -/
theorem C6_stale_token_returns_another_row :
    (scan 2 (Handler.fresh "t".toList 1)
        (World.single "t".toList [",".toList, "a".toList, "b".toList])).map
      (fun x => (x.1.map Fetch.values, (position x.2.1).ref)) =
      some ([[some []], [some "a".toList]], 2) ∧
    (scan 2 (Handler.fresh "t".toList 1)
        (World.single "t".toList [",".toList, "a".toList, "b".toList])).bind
      (fun x => (rnd_end (Handler.fresh "t".toList 1) x.2.2).map
        (fun o => o.world.store "t".toList)) = some ["a".toList, "b".toList] ∧
    (scan 2 (Handler.fresh "t".toList 1)
        (World.single "t".toList [",".toList, "a".toList, "b".toList])).bind
      (fun x =>
        (rnd_end (Handler.fresh "t".toList 1) x.2.2).bind (fun o =>
          (rnd_pos (position x.2.1) o.world (position x.2.1).ref true [true]).map
            (fun f => (f.rc, f.values)))) = some (0, [some "b".toList]) := by
  decide

/-- C6 as amended: position tokens are not invalidated by a compaction.  After `rnd_end`
of another cursor on the same table, `rnd_pos` with a token `t >= 1` returns
`HA_ERR_END_OF_FILE` when `t` exceeds the length of the compacted list, and otherwise
returns 0 with the decoding of the element now stored at index `t - 1` of the compacted
list, whichever row the token was captured for. -/
theorem C6_stale_token_reads_compacted_list (hA hB : Handler) (w : World) (t : Nat)
    (ra : Bool) (rs : List Bool) (hk : KeyOk hA.table_name)
    (hsame : hB.table_name = hA.table_name)
    (h63 : (w.store hA.table_name).length ≤ 9223372036854775808) (ht : 1 ≤ t) :
    ∃ o, rnd_end hB w = some o ∧
      o.world.store hA.table_name =
        (w.store hA.table_name).filter (fun x => x != ",".toList) ∧
      (((w.store hA.table_name).filter (fun x => x != ",".toList)).length < t →
        (rnd_pos hA o.world t ra rs).map (fun f => f.rc) = some HA_ERR_END_OF_FILE) ∧
      (t ≤ ((w.store hA.table_name).filter (fun x => x != ",".toList)).length →
        (rnd_pos hA o.world t ra rs).map (fun f => (f.rc, f.calls)) =
          some (0, field_loop_pos
            (c_str (((w.store hA.table_name).filter (fun x => x != ",".toList)).getD (t - 1) []))
            ra rs 0)) := by
  have he := rnd_end_ok hB w (by rw [hsame]; exact hk)
  have hst : (w.sent ["LREM".toList, hB.table_name, "0".toList, ",".toList]
      (w.store.set hB.table_name
        ((w.store hB.table_name).filter (fun x => x != ",".toList)))).store hA.table_name =
      (w.store hA.table_name).filter (fun x => x != ",".toList) := by
    simp only [World.sent, hsame, Store.set_same]
  refine ⟨_, he, hst, ?_, ?_⟩
  · intro hlt
    rw [rnd_pos_eof _ _ _ _ _ hk (by rw [hst]; exact Or.inr hlt)]
    rfl
  · intro hle
    have hlen := List.length_filter_le (fun x => x != ",".toList) (w.store hA.table_name)
    rw [rnd_pos_ok _ _ _ _ _ hk ht (by rw [hst]; exact hle)
      (by rw [hst]; exact le_trans hlen h63)]
    simp only [hst, Option.map_some']

theorem C6_stale_token_reads_compacted_list_witness :
    (KeyOk "t".toList ∧ (1 : Nat) ≤ 2) ∧
    ∃ o, rnd_end (Handler.fresh "t".toList 1)
        (World.single "t".toList [",".toList, "a".toList, "b".toList]) = some o ∧
      o.world.store "t".toList = ["a".toList, "b".toList] ∧
      (rnd_pos (Handler.fresh "t".toList 1) o.world 2 true [true]).map
        (fun f => (f.rc, f.calls)) = some (0, [some ⟨0, 1⟩]) := by
  refine ⟨⟨by decide, by decide⟩, ?_⟩
  obtain ⟨o, ho, hst, _, hok⟩ := C6_stale_token_reads_compacted_list
    (Handler.fresh "t".toList 1) (Handler.fresh "t".toList 1)
    (World.single "t".toList [",".toList, "a".toList, "b".toList]) 2 true [true]
    (by decide) rfl (by decide) (by decide)
  exact ⟨o, ho, hst.trans (by decide), (hok (by decide)).trans (by decide)⟩

/-- C7 (append), evaluation at two one-column records.  The value `a b` is sent as
`RPUSH t a b`: two elements, `a` and `b`, are appended and none equals the line `a b`.
The empty value is sent as `RPUSH t `, which the server rejects: nothing is appended.
`write_row` returns 0 both times. -/
theorem C7_write_row_line_with_blank :
    build_record (write_row_attributes [⟨false, "a b".toList, []⟩]) = "a b".toList ∧
    (write_row (Handler.fresh "t".toList 1) (World.single "t".toList ["x".toList])
        [⟨false, "a b".toList, []⟩]).map
      (fun o => (o.rc, o.world.log, o.world.store "t".toList)) =
      some (0, [["RPUSH".toList, "t".toList, "a".toList, "b".toList]],
        ["x".toList, "a".toList, "b".toList]) ∧
    (write_row (Handler.fresh "t".toList 1) (World.single "t".toList ["x".toList])
        [⟨false, [], []⟩]).map
      (fun o => (o.rc, o.world.log, o.world.store "t".toList)) =
      some (0, [["RPUSH".toList, "t".toList]], ["x".toList]) := by
  decide

/-! ## Lemmas on table names -/

theorem first_occurrence (x : Char) (l : List Char) (h : x ∈ l) :
    ∃ a b, l = a ++ x :: b ∧ x ∉ a := by
  induction l with
  | nil => simp at h
  | cons y ys ih =>
    by_cases e : y = x
    · exact ⟨[], ys, by simp [e], by simp⟩
    · have hx : x ∈ ys := by
        rcases List.mem_cons.mp h with h1 | h1
        · exact absurd h1.symm e
        · exact h1
      obtain ⟨a, b, hab, ha⟩ := ih hx
      refine ⟨y :: a, b, by simp [hab], ?_⟩
      intro hm
      rcases List.mem_cons.mp hm with h1 | h1
      · exact e h1.symm
      · exact ha h1

theorem find_last_of_none (s : Bytes) (ch : Char) (h : ch ∉ s) : find_last_of s ch = none := by
  unfold find_last_of
  have h2 : ch ∉ s.reverse := by simpa using h
  rw [List.indexOf_eq_length.mpr h2]
  simp

theorem find_last_of_some (pre suf : Bytes) (ch : Char) (h : ch ∉ suf) :
    find_last_of (pre ++ ch :: suf) ch = some pre.length := by
  unfold find_last_of
  have hr : (pre ++ ch :: suf).reverse = suf.reverse ++ ch :: pre.reverse := by simp
  have h2 : ch ∉ suf.reverse := by simpa using h
  rw [hr, List.indexOf_append_of_not_mem h2, List.indexOf_cons_self]
  simp only [List.length_reverse, Nat.add_zero, List.length_append, List.length_cons]
  rw [if_pos (by omega)]
  congr 1
  omega

theorem last_occurrence (x : Char) (l : List Char) (h : x ∈ l) :
    ∃ pre suf, l = pre ++ x :: suf ∧ x ∉ suf := by
  obtain ⟨a, b, hab, ha⟩ := first_occurrence x l.reverse (by simpa using h)
  refine ⟨b.reverse, a.reverse, ?_, by simpa using ha⟩
  have := congrArg List.reverse hab
  simpa using this

theorem c_str_no_nul (s : Bytes) : ∀ c ∈ c_str s, c ≠ '\x00' := by
  intro c hc
  have := List.mem_takeWhile_imp hc
  simpa using this

/-- What `get_table_name` returns, in terms of the C string it is given. -/
theorem get_table_name_spec (tname : Bytes) :
    ('/' ∉ c_str tname → get_table_name tname = c_str tname) ∧
    ('/' ∈ c_str tname →
      ∃ pre, c_str tname = pre ++ '/' :: get_table_name tname ∧
        '/' ∉ get_table_name tname) := by
  constructor
  · intro h
    unfold get_table_name
    simp only [find_last_of_none _ _ h]
  · intro h
    obtain ⟨pre, suf, hs, hsuf⟩ := last_occurrence '/' (c_str tname) h
    have hnul : ∀ c ∈ suf, c ≠ '\x00' := by
      intro c hc
      exact c_str_no_nul tname c (by rw [hs]; simp [hc])
    have hres : get_table_name tname = suf := by
      unfold get_table_name
      simp only [hs, find_last_of_some pre suf '/' hsuf]
      have hd : List.drop (pre.length + 1) (pre ++ '/' :: suf) = suf := by
        have : pre ++ '/' :: suf = (pre ++ ['/']) ++ suf := by simp
        rw [this]
        exact List.drop_left' (by simp)
      rw [hd, List.take_of_length_le (by simp; omega)]
      exact c_str_of_no_nul suf hnul
    rw [hres]
    exact ⟨pre, hs, hsuf⟩

/-- C11 (table-name resolution): for every identifier (a C string), `get_table_name`
returns the part after the last `/` when the identifier contains one and the identifier
itself otherwise; the result holds no `/`, is a suffix of the identifier, and
`get_table_name` maps it to itself. -/
theorem C11_get_table_name (tname : Bytes) (hc : ∀ c ∈ tname, c ≠ '\x00') :
    ('/' ∈ tname →
      ∃ pre, tname = pre ++ '/' :: get_table_name tname ∧ '/' ∉ get_table_name tname) ∧
    ('/' ∉ tname → get_table_name tname = tname) ∧
    '/' ∉ get_table_name tname ∧
    (∃ pre, tname = pre ++ get_table_name tname) ∧
    get_table_name (get_table_name tname) = get_table_name tname := by
  have hs := get_table_name_spec tname
  rw [c_str_of_no_nul tname hc] at hs
  have hno : '/' ∉ get_table_name tname := by
    by_cases h : '/' ∈ tname
    · obtain ⟨_, _, h2⟩ := hs.2 h
      exact h2
    · rw [hs.1 h]; exact h
  have hsuf : ∃ pre, tname = pre ++ get_table_name tname := by
    by_cases h : '/' ∈ tname
    · obtain ⟨pre, h1, _⟩ := hs.2 h
      exact ⟨pre ++ ['/'], by simpa using h1⟩
    · exact ⟨[], by simp [hs.1 h]⟩
  refine ⟨hs.2, hs.1, hno, hsuf, ?_⟩
  have hnul : ∀ c ∈ get_table_name tname, c ≠ '\x00' := by
    obtain ⟨pre, hp⟩ := hsuf
    intro c hcm
    exact hc c (by rw [hp]; simp [hcm])
  have h2 := (get_table_name_spec (get_table_name tname)).1
  rw [c_str_of_no_nul _ hnul] at h2
  exact h2 hno

theorem C11_get_table_name_witness :
    (∀ c ∈ "./db/t1".toList, c ≠ '\x00') ∧
    get_table_name "./db/t1".toList = "t1".toList ∧
    get_table_name (get_table_name "./db/t1".toList) = get_table_name "./db/t1".toList :=
  ⟨by decide,
    by decide,
    (C11_get_table_name "./db/t1".toList (by decide)).2.2.2.2⟩

/-! ## Lemmas on positioned writes and reads -/

theorem Store.set_other (st : Store) (key k : Bytes) (l : List Bytes) (h : k ≠ key) :
    (st.set key l) k = st k := by
  simp [Store.set, h]

theorem cmd_lset_record (name idx v : Bytes) :
    ("LSET ".toList ++ name) ++ (" ".toList ++ idx ++ " ".toList ++ v) =
      join_blank ["LSET".toList, name, idx, v] := by
  simp [join_blank]

/-- A record whose line is non-empty and free of blanks, `%` and NUL replaces, through
`update_row`, the element at index `current_position - 1`. -/
theorem update_row_clean_line (h : Handler) (w : World) (table : List Field)
    (hk : KeyOk h.table_name) (h1 : 1 ≤ h.current_position)
    (hle : h.current_position ≤ (w.store h.table_name).length)
    (h63 : (w.store h.table_name).length ≤ 9223372036854775808)
    (hl : build_record (update_row_attributes table) ≠ [] ∧
      Clean (build_record (update_row_attributes table))) :
    update_row h w table =
      some ⟨0, h,
        w.sent ["LSET".toList, h.table_name, to_string (h.current_position - 1),
            build_record (update_row_attributes table)]
          (w.store.set h.table_name
            ((w.store h.table_name).set (h.current_position - 1)
              (build_record (update_row_attributes table))))⟩ := by
  unfold update_row update_row_cmd
  have hsub : sub_size_t h.current_position 1 = h.current_position - 1 := by
    simp [sub_size_t, h1]
  have hc := redisCommand_tokens w
    ["LSET".toList, h.table_name, to_string (h.current_position - 1),
      build_record (update_row_attributes table)] (by simp)
    (by
      intro t ht
      simp only [List.mem_cons, List.mem_singleton, List.not_mem_nil, or_false] at ht
      rcases ht with e | e | e | e
      · subst e; decide
      · subst e; exact hk
      · subst e; exact to_string_clean _
      · subst e; exact hl)
  rw [redisExec_lset _ _ _ _ (by omega) (by omega)] at hc
  simp only [hsub, cmd_lset_record, hc]

theorem length_filter_ne (t : Bytes) (rows : List Bytes) :
    (rows.filter (fun x => x != t)).length = rows.length - rows.count t := by
  induction rows with
  | nil => rfl
  | cons x xs ih =>
    have hc := List.count_le_length t xs
    by_cases e : x = t
    · subst e
      rw [List.filter_cons_of_neg (by simp), List.count_cons_self, ih]
      simp only [List.length_cons]
      omega
    · rw [List.filter_cons_of_pos (by simpa using e), List.count_cons_of_ne (fun h => e h.symm)]
      simp only [List.length_cons, ih]
      omega

theorem filter_ne_of_not_mem (t : Bytes) (rows : List Bytes) (h : t ∉ rows) :
    rows.filter (fun x => x != t) = rows := by
  rw [List.filter_eq_self]
  intro a ha
  have : a ≠ t := fun e => h (e ▸ ha)
  simpa using this

/-- C12 (mark for deletion): `delete_row` called directly after the `rnd_next` that
returned the row at index `i` (the position before that call) overwrites exactly the
element at index `i` with the tombstone `,`; the length of the list, every other
element, every other list and `current_position` stay as they are. -/
theorem C12_delete_row_marks_last_read (h : Handler) (w : World) (hk : KeyOk h.table_name)
    (h63 : (w.store h.table_name).length ≤ 9223372036854775808)
    (hi : h.current_position < (w.store h.table_name).length) :
    ∃ f o, rnd_next h w = some f ∧ f.rc = 0 ∧
      delete_row f.handler f.world = some o ∧ o.rc = 0 ∧
      o.world.store h.table_name =
        (w.store h.table_name).set h.current_position ",".toList ∧
      (o.world.store h.table_name).length = (w.store h.table_name).length ∧
      (o.world.store h.table_name)[h.current_position]? = some ",".toList ∧
      (∀ j, j ≠ h.current_position →
        (o.world.store h.table_name)[j]? = (w.store h.table_name)[j]?) ∧
      (∀ k, k ≠ h.table_name → o.world.store k = w.store k) ∧
      o.handler.current_position = f.handler.current_position ∧
      o.handler.current_position = h.current_position + 1 := by
  obtain ⟨f, hn, frc, _, ft, fc, _, fw⟩ := rnd_next_ok_fetch h w hk hi (by omega)
  have hd := delete_row_ok f.handler f.world (by rw [ft]; exact hk) (by omega)
    (by rw [fw, ft, fc]; omega) (by rw [fw, ft]; exact h63)
  have hst : (f.world.sent ["LSET".toList, f.handler.table_name,
      to_string (f.handler.current_position - 1), ",".toList]
      (f.world.store.set f.handler.table_name
        ((f.world.store f.handler.table_name).set (f.handler.current_position - 1)
          ",".toList))).store = w.store.set h.table_name
            ((w.store h.table_name).set h.current_position ",".toList) := by
    simp only [World.sent, fw, ft, fc, Nat.add_sub_cancel]
  refine ⟨f, _, hn, frc, hd, rfl, ?_, ?_, ?_, ?_, ?_, rfl, fc⟩
  · rw [hst, Store.set_same]
  · rw [hst, Store.set_same, List.length_set]
  · rw [hst, Store.set_same, List.getElem?_set_self hi]
  · intro j hj
    rw [hst, Store.set_same, List.getElem?_set_ne (fun e => hj e.symm)]
  · intro k hkk
    rw [hst, Store.set_other _ _ _ _ hkk]

theorem C12_delete_row_marks_last_read_witness :
    (KeyOk "t".toList ∧ 1 < ["a".toList, "b".toList, "c".toList].length) ∧
    ∃ f o, rnd_next { Handler.fresh "t".toList 1 with current_position := 1 }
        (World.single "t".toList ["a".toList, "b".toList, "c".toList]) = some f ∧
      delete_row f.handler f.world = some o ∧
      o.world.store "t".toList = ["a".toList, ",".toList, "c".toList] ∧
      o.handler.current_position = 2 := by
  refine ⟨⟨by decide, by decide⟩, ?_⟩
  obtain ⟨f, o, hn, _, hd, _, hst, _, _, _, _, _, hc⟩ := C12_delete_row_marks_last_read
    { Handler.fresh "t".toList 1 with current_position := 1 }
    (World.single "t".toList ["a".toList, "b".toList, "c".toList])
    (by decide) (by decide) (by decide)
  exact ⟨f, o, hn, hd, hst.trans (by decide), hc⟩

/-- C13 (replace), evaluation at a one-column table whose list is `[x]`: after the
`rnd_next` that returned `x`, `update_row` with the value `a b` sends `LSET t 0 a b`, a
command with one argument too many; the server rejects it, `update_row` returns 0 and the
element at index 0 is still `x`, not the line `a b`. -/
theorem C13_update_row_line_with_blank :
    build_record (update_row_attributes [⟨false, "a b".toList, []⟩]) = "a b".toList ∧
    (scan 1 (Handler.fresh "t".toList 1) (World.single "t".toList ["x".toList])).bind
      (fun x => (update_row x.2.1 x.2.2 [⟨false, "a b".toList, []⟩]).map
        (fun o => (o.rc, o.world.log.getLast?, o.world.store "t".toList))) =
      some (0, some ["LSET".toList, "t".toList, "0".toList, "a".toList, "b".toList],
        ["x".toList]) := by
  decide

/-- C15 (compaction at scan end): `rnd_end` leaves the list of the table equal to the
previous list without the elements equal to `,`, the others in their order: the length
drops by the number of tombstones, a list without tombstones is unchanged, other lists
are untouched, `current_position` becomes 0, and a second `rnd_end` changes nothing. -/
theorem C15_rnd_end_compacts (h : Handler) (w : World) (hk : KeyOk h.table_name) :
    ∃ o, rnd_end h w = some o ∧ o.rc = 0 ∧
      o.world.store h.table_name =
        (w.store h.table_name).filter (fun x => x != ",".toList) ∧
      (o.world.store h.table_name).length =
        (w.store h.table_name).length - (w.store h.table_name).count ",".toList ∧
      (",".toList ∉ w.store h.table_name → o.world.store h.table_name = w.store h.table_name) ∧
      (∀ k, k ≠ h.table_name → o.world.store k = w.store k) ∧
      o.handler.current_position = 0 ∧
      ∃ o2, rnd_end o.handler o.world = some o2 ∧
        o2.world.store h.table_name = o.world.store h.table_name ∧
        o2.handler.current_position = 0 := by
  have he := rnd_end_ok h w hk
  have he2 := rnd_end_ok ({ h with current_position := 0 })
    (w.sent ["LREM".toList, h.table_name, "0".toList, ",".toList]
      (w.store.set h.table_name
        ((w.store h.table_name).filter (fun x => x != ",".toList)))) hk
  refine ⟨_, he, rfl, ?_, ?_, ?_, ?_, rfl, _, he2, ?_, rfl⟩
  · simp only [World.sent, Store.set_same]
  · simp only [World.sent, Store.set_same, length_filter_ne]
  · intro hno
    simp only [World.sent, Store.set_same, filter_ne_of_not_mem _ _ hno]
  · intro k hkk
    simp only [World.sent, Store.set_other _ _ _ _ hkk]
  · simp only [World.sent, Store.set_same, List.filter_filter, Bool.and_self]

theorem C15_rnd_end_compacts_witness :
    KeyOk "t".toList ∧
    ∃ o, rnd_end { Handler.fresh "t".toList 1 with current_position := 3 }
        (World.single "t".toList [",".toList, "a".toList, ",".toList, "b".toList]) = some o ∧
      o.world.store "t".toList = ["a".toList, "b".toList] ∧
      o.handler.current_position = 0 := by
  refine ⟨by decide, ?_⟩
  obtain ⟨o, ho, _, hst, _, _, _, hc, _⟩ := C15_rnd_end_compacts
    { Handler.fresh "t".toList 1 with current_position := 3 }
    (World.single "t".toList [",".toList, "a".toList, ",".toList, "b".toList]) (by decide)
  exact ⟨o, ho, hst.trans (by decide), hc⟩

/-- C16 (tombstones surface), evaluation at the list `[","]` and three fields:
`rnd_next` returns 0 and the first two fields receive the empty string, but the third
receives the offset 2 and the length `2^64 - 1`, a range outside the one-byte buffer. -/
theorem C16_tombstone_three_fields :
    (rnd_next (Handler.fresh "t".toList 3) (World.single "t".toList [",".toList])).map
      (fun f => (f.rc, f.calls, f.values)) =
      some (0, [some ⟨0, 0⟩, some ⟨1, 0⟩, some ⟨2, 18446744073709551615⟩],
        [some [], some [], none]) := by
  decide

/-! ## Lemmas on corrupted and colliding lines -/

/-- The field loop over any line: field `i` receives the `i`-th comma-separated segment;
the fields after the last segment receive a range outside the buffer. -/
theorem decode_eq_segments (line : Bytes) (N : Nat) :
    decode line N = ((line.splitOn ',').take N).map some ++
      List.replicate (N - (line.splitOn ',').length) none := by
  have hne : line.splitOn ',' ≠ [] := List.splitOnP_ne_nil _ _
  have h := decode_build_record (line.splitOn ',') hne (splitOn_comma_free line) N
  rw [build_record_eq_intercalate, List.intercalate_splitOn] at h
  exact h

theorem decode_pieces_comma_free (line : Bytes) (N : Nat) (s : Bytes)
    (h : some s ∈ decode line N) : ',' ∉ s := by
  rw [decode_eq_segments] at h
  rcases List.mem_append.mp h with h1 | h1
  · obtain ⟨x, hx, hxs⟩ := List.mem_map.mp h1
    have e : x = s := Option.some.inj hxs
    rw [← e]
    exact splitOn_comma_free line x (List.mem_of_mem_take hx)
  · have := (List.mem_replicate.mp h1).2
    exact absurd this (by simp)

theorem build_record_eq_comma (fields : List Bytes) (hne : fields ≠ [])
    (hfree : ∀ f ∈ fields, ',' ∉ f) :
    build_record fields = ",".toList ↔ fields = [[], []] := by
  constructor
  · intro h
    cases fields with
    | nil => exact absurd rfl hne
    | cons a rest =>
      cases rest with
      | nil =>
        rw [build_record_single] at h
        exact absurd (by rw [h]; decide) (hfree a (List.mem_cons_self _ _))
      | cons b rest =>
        cases rest with
        | nil =>
          rw [build_record_cons_cons, build_record_single] at h
          cases a with
          | nil =>
            have hb : b = [] := by simpa using h
            rw [hb]
          | cons c a2 =>
            have := congrArg List.length h
            simp at this
        | cons c rest =>
          rw [build_record_cons_cons, build_record_cons_cons] at h
          have := congrArg List.length h
          simp only [List.length_append, List.length_cons, String.toList,
            List.length_nil] at this
          omega
  · intro h
    rw [h]
    decide

/-- C17 (delimiter corruption): for every tuple in which some value contains the byte
`,` (such a tuple is not empty), decoding the encoded line over the tuple's own number
of fields does not give back the tuple: every piece a field receives is free of commas. -/
theorem C17_delimiter_corrupts (fields : List Bytes) (hex : ∃ f ∈ fields, ',' ∈ f) :
    decode (build_record fields) fields.length ≠ fields.map some ∧
    ∀ s, some s ∈ decode (build_record fields) fields.length → ',' ∉ s := by
  refine ⟨?_, fun s hs => decode_pieces_comma_free _ _ s hs⟩
  intro heq
  obtain ⟨f, hf, hc⟩ := hex
  have hm : some f ∈ decode (build_record fields) fields.length := by
    rw [heq]
    exact List.mem_map.mpr ⟨f, hf, rfl⟩
  exact decode_pieces_comma_free _ _ f hm hc

theorem C17_delimiter_corrupts_witness :
    (∃ f ∈ ["a,b".toList, "c".toList], ',' ∈ f) ∧
    decode (build_record ["a,b".toList, "c".toList]) 2 = [some "a".toList, some "b".toList] ∧
    decode (build_record ["a,b".toList, "c".toList]) 2 ≠
      ["a,b".toList, "c".toList].map some :=
  ⟨by decide, by decide,
    (C17_delimiter_corrupts ["a,b".toList, "c".toList] (by decide)).1⟩

/-- Lines as they stand in the list: the line of a two-column row of two empty values is
removed by `rnd_end`; an element holding the line of a row with one column or with three
and more columns stays. -/
theorem tombstone_collision_lines (fields : List Bytes) (hne : fields ≠ [])
    (hfree : ∀ f ∈ fields, ',' ∉ f) (h : Handler) (w : World) (hk : KeyOk h.table_name) :
    ∃ o, rnd_end h w = some o ∧
      (fields = [[], []] → build_record fields ∉ o.world.store h.table_name) ∧
      (fields.length ≠ 2 →
        (o.world.store h.table_name).count (build_record fields) =
          (w.store h.table_name).count (build_record fields)) := by
  have hiff := build_record_eq_comma fields hne hfree
  refine ⟨_, rnd_end_ok h w hk, ?_, ?_⟩
  · intro h2
    simp only [World.sent, Store.set_same, hiff.mpr h2]
    intro hm
    have := (List.mem_filter.mp hm).2
    simp at this
  · intro hlen
    have hneq : build_record fields ≠ ",".toList := by
      intro e
      have := hiff.mp e
      rw [this] at hlen
      exact hlen rfl
    simp only [World.sent, Store.set_same]
    exact List.count_filter (by simpa using hneq)

/-- C18 (tombstone collision), evaluation at the three-column row `("", " ", "")` written
into an empty table: its line `, ,` is not the tombstone, but `write_row` sends it as
`RPUSH t , ,`, so the row is stored as two elements `,`, and the next `rnd_end` removes
both: the live row is removed by compaction. -/
theorem C18_three_column_row_removed :
    build_record (write_row_attributes [⟨false, [], []⟩, ⟨false, " ".toList, []⟩,
      ⟨false, [], []⟩]) = ", ,".toList ∧
    (write_row (Handler.fresh "t".toList 3) (World.single "t".toList [])
        [⟨false, [], []⟩, ⟨false, " ".toList, []⟩, ⟨false, [], []⟩]).map
      (fun o => (o.rc, o.world.log, o.world.store "t".toList)) =
      some (0, [["RPUSH".toList, "t".toList, ",".toList, ",".toList]],
        [",".toList, ",".toList]) ∧
    (write_row (Handler.fresh "t".toList 3) (World.single "t".toList [])
        [⟨false, [], []⟩, ⟨false, " ".toList, []⟩, ⟨false, [], []⟩]).bind
      (fun o => (rnd_end o.handler o.world).map (fun o2 => o2.world.store "t".toList)) =
      some [] := by
  decide

/-! ## Lemmas on commands with an arbitrary record -/

theorem c_str_append_no_nul (a b : Bytes) (h : ∀ c ∈ a, c ≠ '\x00') :
    c_str (a ++ b) = a ++ c_str b := by
  induction a with
  | nil => rfl
  | cons x xs ih =>
    have hx : x ≠ '\x00' := h x (List.mem_cons_self _ _)
    have e : c_str (x :: (xs ++ b)) = x :: c_str (xs ++ b) := by
      simp [c_str, hx]
    rw [List.cons_append, e, ih (fun c hc => h c (List.mem_cons_of_mem _ hc))]
    rfl

/-- The argument scanner only ever adds arguments behind those it already has. -/
theorem format_loop_extends (n : Nat) :
    ∀ (s cur : Bytes) (t : Bool) (argv res : List Bytes), s.length ≤ n →
      format_loop s cur t argv = .args res → ∃ extra, res = argv ++ extra := by
  induction n using Nat.strong_induction_on with
  | _ n ih =>
    intro s cur t argv res hn hres
    cases s with
    | nil =>
      simp only [format_loop, Formatted.args.injEq] at hres
      split at hres
      · exact ⟨[cur], hres.symm⟩
      · exact ⟨[], by simp [← hres]⟩
    | cons c rest =>
      cases rest with
      | nil =>
        simp only [format_loop] at hres
        split at hres
        · simp only [Formatted.args.injEq] at hres
          split at hres
          · exact ⟨[cur], hres.symm⟩
          · exact ⟨[], by simp [← hres]⟩
        · simp only [Formatted.args.injEq] at hres
          exact ⟨[cur ++ [c]], hres.symm⟩
      | cons d cs =>
        simp only [List.length_cons] at hn
        simp only [format_loop] at hres
        split at hres
        · split at hres
          · exact ih (n - 1) (by omega) cs _ _ _ _ (by omega) hres
          · split at hres
            · exact absurd hres (by simp)
            · exact absurd hres (by simp)
        · split at hres
          · split at hres
            · obtain ⟨extra, he⟩ := ih (n - 1) (by omega) (d :: cs) _ _ _ _
                (by simp only [List.length_cons]; omega) hres
              exact ⟨cur :: extra, by simp [he]⟩
            · exact ih (n - 1) (by omega) (d :: cs) _ _ _ _
                (by simp only [List.length_cons]; omega) hres
          · exact ih (n - 1) (by omega) (d :: cs) _ _ _ _
              (by simp only [List.length_cons]; omega) hres

theorem format_tokens_then (toks : List Bytes) (hne : toks ≠ [])
    (h : ∀ t ∈ toks, t ≠ [] ∧ Clean t) (rest : Bytes) (argv : List Bytes) :
    format_loop (join_blank toks ++ ' ' :: rest) [] false argv =
      format_loop rest [] false (argv ++ toks) := by
  induction toks generalizing argv with
  | nil => exact absurd rfl hne
  | cons t ts ih =>
    have ht := h t (List.mem_cons_self _ _)
    cases ts with
    | nil =>
      simp only [join_blank]
      rw [format_loop_token t _ argv ht.2 [] false ht.1, List.nil_append, format_loop_blank]
    | cons u ts =>
      simp only [join_blank, List.append_assoc, List.cons_append]
      rw [format_loop_token t _ argv ht.2 [] false ht.1, List.nil_append, format_loop_blank]
      have := ih (by simp) (fun x hx => h x (List.mem_cons_of_mem _ hx)) (argv ++ [t])
      simp only [List.append_assoc, List.singleton_append] at this
      exact this

/-- The scanner's verdict on a command text that starts with clean arguments and goes on
with any bytes. -/
theorem redisvFormatCommand_prefix (toks : List Bytes) (hne : toks ≠ [])
    (h : ∀ t ∈ toks, t ≠ [] ∧ Clean t) (rest : Bytes) :
    redisvFormatCommand (c_str (join_blank toks ++ ' ' :: rest)) =
      format_loop (c_str rest) [] false toks := by
  unfold redisvFormatCommand
  have hcs : c_str (join_blank toks ++ ' ' :: rest) = join_blank toks ++ ' ' :: c_str rest := by
    rw [c_str_append_no_nul _ _ (join_blank_no_nul toks h)]
    have e : c_str (' ' :: rest) = ' ' :: c_str rest := by simp [c_str]
    rw [e]
  rw [hcs, format_tokens_then toks hne h, List.nil_append]

/-- A command text that starts with clean arguments and goes on with any bytes: either
the format is not defined, or hiredis rejects it and sends nothing, or the server
receives a command that starts with these arguments. -/
theorem redisCommand_prefix (w : World) (toks : List Bytes) (hne : toks ≠ [])
    (h : ∀ t ∈ toks, t ≠ [] ∧ Clean t) (rest : Bytes) :
    redisCommand w (join_blank toks ++ ' ' :: rest) = .undefined ∨
    redisCommand w (join_blank toks ++ ' ' :: rest) = .null ∨
    ∃ extra, redisCommand w (join_blank toks ++ ' ' :: rest) =
      .reply (redisExec (toks ++ extra) w.store).1
        (w.sent (toks ++ extra) (redisExec (toks ++ extra) w.store).2) := by
  unfold redisCommand
  rw [ redisvFormatCommand_prefix toks hne h rest]
  cases hf : format_loop (c_str rest) [] false toks with
  | undefined => exact Or.inl rfl
  | invalid => exact Or.inr (Or.inl rfl)
  | args argv =>
    obtain ⟨extra, he⟩ := format_loop_extends _ _ _ _ _ _ (Nat.le_refl _) hf
    subst he
    exact Or.inr (Or.inr ⟨extra, rfl⟩)

theorem cmd_rpush_prefix (name record : Bytes) :
    ("RPUSH ".toList ++ name) ++ (" ".toList ++ record) =
      join_blank ["RPUSH".toList, name] ++ ' ' :: record := by
  simp [join_blank]

theorem cmd_lset_prefix (name idx record : Bytes) :
    ("LSET ".toList ++ name) ++ (" ".toList ++ idx ++ " ".toList ++ record) =
      join_blank ["LSET".toList, name, idx] ++ ' ' :: record := by
  simp [join_blank]

theorem cmd_lset_delete (name idx : Bytes) :
    ("LSET ".toList ++ name) ++ (" ".toList ++ idx ++ " ,".toList) =
      join_blank ["LSET".toList, name, idx] ++ ' ' :: ",".toList := by
  simp [join_blank]

theorem lset_tokens_clean (name : Bytes) (hk : KeyOk name) (idx : Nat) :
    ∀ t ∈ ["LSET".toList, name, to_string idx], t ≠ [] ∧ Clean t := by
  intro t ht
  simp only [List.mem_cons, List.mem_singleton, List.not_mem_nil, or_false] at ht
  rcases ht with e | e | e
  · subst e; decide
  · subst e; exact hk
  · subst e; exact to_string_clean idx

theorem rpush_tokens_clean (name : Bytes) (hk : KeyOk name) :
    ∀ t ∈ ["RPUSH".toList, name], t ≠ [] ∧ Clean t := by
  intro t ht
  simp only [List.mem_cons, List.mem_singleton, List.not_mem_nil, or_false] at ht
  rcases ht with e | e
  · subst e; decide
  · subst e; exact hk

/-- The command string of a row operation as clean leading arguments followed by the
rest of the text. -/
theorem row_op_cmd_prefix (op : RowOp) (h : Handler) (hk : KeyOk h.table_name) :
    ∃ toks rest, op.cmd h = join_blank toks ++ ' ' :: rest ∧ toks ≠ [] ∧
      (∀ t ∈ toks, t ≠ [] ∧ Clean t) ∧ toks[1]? = some h.table_name := by
  cases op with
  | write table =>
    exact ⟨_, _, cmd_rpush_prefix _ _, by simp, rpush_tokens_clean _ hk, rfl⟩
  | update table =>
    exact ⟨_, _, cmd_lset_prefix _ _ _, by simp, lset_tokens_clean _ hk _, rfl⟩
  | delete =>
    exact ⟨_, _, cmd_lset_delete _ _, by simp, lset_tokens_clean _ hk _, rfl⟩

/-- A row operation in terms of the outcome of its `redisCommand` call. -/
theorem row_op_call_eq (op : RowOp) (h : Handler) (w : World) :
    ∃ h1 : Handler, h1.table_name = h.table_name ∧
      h1.current_position = h.current_position ∧
      op.call h w =
        match redisCommand w (op.cmd h) with
        | .undefined => none
        | .null => some ⟨0, h1, w⟩
        | .reply _ w1 => some ⟨0, h1, w1⟩ := by
  cases op with
  | write table => exact ⟨{ h with records := h.records + 1 }, rfl, rfl, rfl⟩
  | update table => exact ⟨h, rfl, rfl, rfl⟩
  | delete => exact ⟨h, rfl, rfl, rfl⟩

/-- Every one of the three row operations keeps `share->table_name` and
`current_position`. -/
theorem row_op_handler (op : RowOp) (h : Handler) (w : World) (o : Outcome)
    (hop : op.call h w = some o) :
    o.rc = 0 ∧ o.handler.table_name = h.table_name ∧
      o.handler.current_position = h.current_position := by
  obtain ⟨h1, ht, hc, he⟩ := row_op_call_eq op h w
  rw [he] at hop
  split at hop
  · exact absurd hop (by simp)
  · simp only [Option.some.injEq] at hop; rw [← hop]; exact ⟨rfl, ht, hc⟩
  · simp only [Option.some.injEq] at hop; rw [← hop]; exact ⟨rfl, ht, hc⟩

/-- A row operation sends at most one command, and the key argument of that command is
`share->table_name`. -/
theorem row_op_key (op : RowOp) (h : Handler) (w : World) (o : Outcome)
    (hk : KeyOk h.table_name) (hop : op.call h w = some o) :
    o.world = w ∨
    ∃ argv, o.world.log = w.log ++ [argv] ∧ argv[1]? = some h.table_name ∧
      o.world.store = (redisExec argv w.store).2 := by
  obtain ⟨h1, _, _, he⟩ := row_op_call_eq op h w
  obtain ⟨toks, rest, hcmd, hne, hclean, hkey⟩ := row_op_cmd_prefix op h hk
  rw [he, hcmd] at hop
  rcases redisCommand_prefix w toks hne hclean rest with hr | hr | ⟨extra, hr⟩
  · rw [hr] at hop; exact absurd hop (by simp)
  · rw [hr] at hop
    simp only [Option.some.injEq] at hop
    rw [← hop]; exact Or.inl rfl
  · rw [hr] at hop
    simp only [Option.some.injEq] at hop
    rw [← hop]
    refine Or.inr ⟨toks ++ extra, rfl, ?_, rfl⟩
    cases toks with
    | nil => exact absurd rfl hne
    | cons a as =>
      cases as with
      | nil => simp at hkey
      | cons b bs => simpa using hkey

/-- A row operation whose command text holds no conversion that reads a variadic
argument returns. -/
theorem row_op_defined (op : RowOp) (h : Handler) (w : World)
    (hd : redisvFormatCommand (c_str (op.cmd h)) ≠ .undefined) :
    ∃ o, op.call h w = some o := by
  obtain ⟨h1, _, _, he⟩ := row_op_call_eq op h w
  rw [he]
  unfold redisCommand
  cases hf : redisvFormatCommand (c_str (op.cmd h)) with
  | undefined => exact absurd hf hd
  | invalid => exact ⟨_, rfl⟩
  | args argv => exact ⟨_, rfl⟩

theorem row_op_cmd_congr (op : RowOp) (h h2 : Handler)
    (ht : h2.table_name = h.table_name) (hc : h2.current_position = h.current_position) :
    op.cmd h2 = op.cmd h := by
  cases op <;>
    simp only [RowOp.cmd, write_row_cmd, update_row_cmd, delete_row_cmd, ht, hc]

theorem run_ops_handler (ops : List RowOp) :
    ∀ (h : Handler) (w : World) (h2 : Handler) (w2 : World),
      run_ops ops h w = some (h2, w2) →
      h2.table_name = h.table_name ∧ h2.current_position = h.current_position := by
  induction ops with
  | nil =>
    intro h w h2 w2 hr
    simp only [run_ops, Option.some.injEq, Prod.mk.injEq] at hr
    rw [← hr.1]
    exact ⟨rfl, rfl⟩
  | cons op ops ih =>
    intro h w h2 w2 hr
    simp only [run_ops] at hr
    cases hop : op.call h w with
    | none => rw [hop] at hr; exact absurd hr (by simp)
    | some o =>
      rw [hop] at hr
      obtain ⟨_, ht, hc⟩ := row_op_handler op h w o hop
      obtain ⟨ht2, hc2⟩ := ih o.handler o.world h2 w2 hr
      exact ⟨ht2.trans ht, hc2.trans hc⟩

theorem run_ops_key (ops : List RowOp) :
    ∀ (h : Handler) (w : World) (h2 : Handler) (w2 : World), KeyOk h.table_name →
      run_ops ops h w = some (h2, w2) →
      ∃ cmds, w2.log = w.log ++ cmds ∧ cmds.length ≤ ops.length ∧
        ∀ argv ∈ cmds, argv[1]? = some h.table_name := by
  induction ops with
  | nil =>
    intro h w h2 w2 _ hr
    simp only [run_ops, Option.some.injEq, Prod.mk.injEq] at hr
    rw [← hr.2]
    exact ⟨[], by simp, by simp, by simp⟩
  | cons op ops ih =>
    intro h w h2 w2 hk hr
    simp only [run_ops] at hr
    cases hop : op.call h w with
    | none => rw [hop] at hr; exact absurd hr (by simp)
    | some o =>
      rw [hop] at hr
      obtain ⟨_, ht, _⟩ := row_op_handler op h w o hop
      obtain ⟨cmds, hlog2, hlen, hall⟩ := ih o.handler o.world h2 w2
        (by rw [ht]; exact hk) hr
      rw [ht] at hall
      rcases row_op_key op h w o hk hop with hw | ⟨argv, hlog, hkey, _⟩
      · rw [hw] at hlog2
        exact ⟨cmds, hlog2, by simp only [List.length_cons]; omega, hall⟩
      · refine ⟨argv :: cmds, ?_, by simp only [List.length_cons]; omega, ?_⟩
        · rw [hlog2, hlog]; simp
        · intro a ha
          rcases List.mem_cons.mp ha with e | e
          · rw [e]; exact hkey
          · exact hall a e

theorem run_ops_defined (ops : List RowOp) :
    ∀ (h : Handler) (w : World),
      (∀ op ∈ ops, redisvFormatCommand (c_str (op.cmd h)) ≠ .undefined) →
      ∃ h2 w2, run_ops ops h w = some (h2, w2) := by
  induction ops with
  | nil => intro h w _; exact ⟨h, w, rfl⟩
  | cons op ops ih =>
    intro h w hd
    obtain ⟨o, hop⟩ := row_op_defined op h w (hd op (List.mem_cons_self _ _))
    obtain ⟨_, ht, hc⟩ := row_op_handler op h w o hop
    obtain ⟨h2, w2, hr⟩ := ih o.handler o.world (by
      intro op2 hop2
      rw [row_op_cmd_congr op2 h o.handler ht hc]
      exact hd op2 (List.mem_cons_of_mem _ hop2))
    exact ⟨h2, w2, by simp only [run_ops, hop, hr]⟩

/-- Redis rejects every LSET whose index is the text of `2^64 - 1`, whatever follows. -/
theorem redisExec_lset_wrapped (key : Bytes) (extra : List Bytes) (st : Store) :
    (redisExec (["LSET".toList, key, "18446744073709551615".toList] ++ extra) st).2 = st := by
  cases extra with
  | nil => rfl
  | cons v vs =>
    cases vs with
    | nil =>
      have e : redisExec (["LSET".toList, key, "18446744073709551615".toList] ++ [v]) st =
          (if st key = [] then (.error "ERR no such key".toList, st)
            else match string2ll "18446744073709551615".toList with
              | none => (err_not_integer, st)
              | some i =>
                match list_index (st key).length i with
                | none => (.error "ERR index out of range".toList, st)
                | some j => (.status "OK".toList, st.set key ((st key).set j v))) := rfl
      have hs : string2ll "18446744073709551615".toList = none := by decide
      rw [e, hs]
      split <;> rfl
    | cons v2 vs2 => rfl

/-- What `delete_row` sends, for every position. -/
theorem delete_row_sent (h : Handler) (w : World) (hk : KeyOk h.table_name) :
    delete_row h w =
      some ⟨0, h,
        w.sent ["LSET".toList, h.table_name, to_string (sub_size_t h.current_position 1),
            ",".toList]
          (redisExec ["LSET".toList, h.table_name,
            to_string (sub_size_t h.current_position 1), ",".toList] w.store).2⟩ := by
  unfold delete_row delete_row_cmd
  have hc := redisCommand_tokens w
    ["LSET".toList, h.table_name, to_string (sub_size_t h.current_position 1), ",".toList]
    (by simp)
    (by
      intro t ht
      simp only [List.mem_cons, List.mem_singleton, List.not_mem_nil, or_false] at ht
      rcases ht with e | e | e | e
      · subst e; decide
      · subst e; exact hk
      · subst e; exact to_string_clean _
      · subst e; decide)
  have e : " ,".toList = ' ' :: ",".toList := rfl
  simp only [e, cmd_lset, hc]

/-- What `update_row` does with the server, for every position and every record for
which it returns: either hiredis rejects the command text and nothing is sent, or one
LSET command is sent whose index argument is the text of `current_position - 1`. -/
theorem update_row_sent (h : Handler) (w : World) (table : List Field) (o : Outcome)
    (hk : KeyOk h.table_name) (hu : update_row h w table = some o) :
    o.rc = 0 ∧ o.handler = h ∧
    (o.world = w ∨
      ∃ extra,
        o.world.log = w.log ++
          [["LSET".toList, h.table_name, to_string (sub_size_t h.current_position 1)] ++
            extra] ∧
        o.world.store = (redisExec (["LSET".toList, h.table_name,
          to_string (sub_size_t h.current_position 1)] ++ extra) w.store).2) := by
  unfold update_row update_row_cmd at hu
  rw [ cmd_lset_prefix] at hu
  rcases redisCommand_prefix w _ (by simp) (lset_tokens_clean _ hk
    (sub_size_t h.current_position 1)) (build_record (update_row_attributes table))
    with hr | hr | ⟨extra, hr⟩
  · rw [hr] at hu; exact absurd hu (by simp)
  · rw [hr] at hu
    simp only [Option.some.injEq] at hu
    rw [← hu]; exact ⟨rfl, rfl, Or.inl rfl⟩
  · rw [hr] at hu
    simp only [Option.some.injEq] at hu
    rw [← hu]; exact ⟨rfl, rfl, Or.inr ⟨extra, rfl, rfl⟩⟩

theorem sub_size_t_one (cp : Nat) (h : 1 ≤ cp) : sub_size_t cp 1 = cp - 1 := by
  simp [sub_size_t, h]

theorem to_string_wrapped : to_string (sub_size_t 0 1) = "18446744073709551615".toList := by
  decide

/-- C19 (index arithmetic at position 0): with `current_position = 0` the index that
`delete_row` and `update_row` write into the LSET command is `(0 - 1) mod 2^64`, the text
`18446744073709551615` and not `-1`; it is not below the length of any list, so whether
hiredis sends the command (the server rejects it) or not, no element of any list is
overwritten.  For every `current_position >= 1` the index written is
`current_position - 1`. -/
theorem C19_index_at_position_zero (h : Handler) (w : World) (hk : KeyOk h.table_name)
    (h0 : h.current_position = 0) :
    sub_size_t h.current_position 1 = 18446744073709551615 ∧
    to_string (sub_size_t h.current_position 1) = "18446744073709551615".toList ∧
    to_string (sub_size_t h.current_position 1) ≠ "-1".toList ∧
    ((w.store h.table_name).length ≤ 9223372036854775808 →
      (w.store h.table_name).length ≤ sub_size_t h.current_position 1) ∧
    delete_row_cmd h =
      "LSET ".toList ++ h.table_name ++ " 18446744073709551615 ,".toList ∧
    (∀ table, update_row_cmd h table =
      "LSET ".toList ++ h.table_name ++ " 18446744073709551615 ".toList ++
        build_record (update_row_attributes table)) ∧
    (∃ o, delete_row h w = some o ∧
      o.world.log = w.log ++
        [["LSET".toList, h.table_name, "18446744073709551615".toList, ",".toList]] ∧
      o.world.store = w.store) ∧
    (∀ table, redisvFormatCommand (c_str (update_row_cmd h table)) ≠ .undefined →
      ∃ o, update_row h w table = some o) ∧
    (∀ table o, update_row h w table = some o →
      o.rc = 0 ∧ o.world.store = w.store ∧
      (o.world.log = w.log ∨
        ∃ extra, o.world.log = w.log ++
          [["LSET".toList, h.table_name, "18446744073709551615".toList] ++ extra])) ∧
    (∀ (h2 : Handler) (w2 : World), KeyOk h2.table_name → 1 ≤ h2.current_position →
      sub_size_t h2.current_position 1 = h2.current_position - 1 ∧
      delete_row_cmd h2 =
        "LSET ".toList ++ h2.table_name ++ " ".toList ++
          to_string (h2.current_position - 1) ++ " ,".toList ∧
      (∀ table, update_row_cmd h2 table =
        "LSET ".toList ++ h2.table_name ++ " ".toList ++
          to_string (h2.current_position - 1) ++ " ".toList ++
          build_record (update_row_attributes table)) ∧
      (∃ o, delete_row h2 w2 = some o ∧
        o.world.log = w2.log ++ [["LSET".toList, h2.table_name,
          to_string (h2.current_position - 1), ",".toList]]) ∧
      (∀ table o, update_row h2 w2 table = some o →
        o.world.log = w2.log ∨
        ∃ extra, o.world.log = w2.log ++ [["LSET".toList, h2.table_name,
          to_string (h2.current_position - 1)] ++ extra])) := by
  have hidx : to_string (sub_size_t h.current_position 1) = "18446744073709551615".toList := by
    rw [h0]; exact to_string_wrapped
  refine ⟨by rw [h0]; decide, hidx, by rw [hidx]; decide, ?_, ?_, ?_, ?_, ?_, ?_, ?_⟩
  · intro hl
    rw [h0]
    have : sub_size_t 0 1 = 18446744073709551615 := by decide
    omega
  · simp [delete_row_cmd, hidx]
  · intro table
    simp [update_row_cmd, hidx]
  · refine ⟨_, delete_row_sent h w hk, ?_, ?_⟩
    · simp only [World.sent, hidx]
    · simp only [World.sent, hidx]
      exact redisExec_lset_wrapped h.table_name [",".toList] w.store
  · intro table hd
    exact row_op_defined (.update table) h w hd
  · intro table o hu
    obtain ⟨hrc, _, hcase⟩ := update_row_sent h w table o hk hu
    rcases hcase with hw | ⟨extra, hlog, hst⟩
    · rw [hw]; exact ⟨hrc, rfl, Or.inl rfl⟩
    · rw [hidx] at hlog hst
      exact ⟨hrc, hst.trans (redisExec_lset_wrapped _ _ _), Or.inr ⟨extra, hlog⟩⟩
  · intro h2 w2 hk2 h1
    have hs := sub_size_t_one h2.current_position h1
    refine ⟨hs, by simp [delete_row_cmd, hs], fun table => by simp [update_row_cmd, hs],
      ⟨_, delete_row_sent h2 w2 hk2, by simp only [World.sent, hs]⟩, ?_⟩
    intro table o hu
    obtain ⟨_, _, hcase⟩ := update_row_sent h2 w2 table o hk2 hu
    rcases hcase with hw | ⟨extra, hlog, _⟩
    · rw [hw]; exact Or.inl rfl
    · rw [hs] at hlog
      exact Or.inr ⟨extra, hlog⟩

theorem C19_index_at_position_zero_witness :
    (KeyOk "t".toList ∧ (Handler.fresh "t".toList 1).current_position = 0) ∧
    (∃ o, delete_row (Handler.fresh "t".toList 1)
        (World.single "t".toList ["a".toList, "b".toList]) = some o ∧
      o.world.log =
        [["LSET".toList, "t".toList, "18446744073709551615".toList, ",".toList]] ∧
      o.world.store "t".toList = ["a".toList, "b".toList]) ∧
    (update_row (Handler.fresh "t".toList 1)
        (World.single "t".toList ["a".toList, "b".toList]) [⟨false, "z".toList, []⟩]).map
      (fun o => (o.rc, o.world.log, o.world.store "t".toList)) =
      some (0, [["LSET".toList, "t".toList, "18446744073709551615".toList, "z".toList]],
        ["a".toList, "b".toList]) ∧
    (update_row (Handler.fresh "t".toList 1)
        (World.single "t".toList ["a".toList, "b".toList]) [⟨false, "%z".toList, []⟩]).map
      (fun o => (o.rc, o.world.log, o.world.store "t".toList)) =
      some (0, [], ["a".toList, "b".toList]) := by
  refine ⟨⟨by decide, rfl⟩, ?_, by decide, by decide⟩
  obtain ⟨o, ho, hlog, hst⟩ := (C19_index_at_position_zero (Handler.fresh "t".toList 1)
    (World.single "t".toList ["a".toList, "b".toList]) (by decide) rfl).2.2.2.2.2.2.1
  exact ⟨o, ho, hlog, by rw [hst]; rfl⟩

/-- C20 (table name is not mutated by command building): `open` sets
`share->table_name` to `get_table_name(tname)`.  Whenever a sequence of `write_row`,
`update_row` and `delete_row` calls returns, `share->table_name` still has that value, and
every command the calls have sent (at most one per call, none when hiredis rejects the
text) has that name as its key argument.  The sequence does return when no command text
holds a conversion that reads a variadic argument. -/
theorem C20_table_name_not_mutated (tname : Bytes) (h : Handler) (w : World)
    (ops : List RowOp) :
    (ha_open h tname).2.table_name = get_table_name tname ∧
    (∀ h2 w2, run_ops ops (ha_open h tname).2 w = some (h2, w2) →
      h2.table_name = get_table_name tname ∧
      (KeyOk (get_table_name tname) →
        ∃ cmds, w2.log = w.log ++ cmds ∧ cmds.length ≤ ops.length ∧
          ∀ argv ∈ cmds, argv[1]? = some (get_table_name tname))) ∧
    ((∀ op ∈ ops, redisvFormatCommand (c_str (op.cmd (ha_open h tname).2)) ≠ .undefined) →
      ∃ h2 w2, run_ops ops (ha_open h tname).2 w = some (h2, w2)) := by
  refine ⟨rfl, ?_, run_ops_defined ops (ha_open h tname).2 w⟩
  intro h2 w2 hrun
  exact ⟨(run_ops_handler ops _ w h2 w2 hrun).1,
    fun hk => run_ops_key ops (ha_open h tname).2 w h2 w2 hk hrun⟩

theorem C20_table_name_not_mutated_witness :
    (KeyOk (get_table_name "./db/t".toList) ∧
      ∀ op ∈ [RowOp.write [⟨false, "a".toList, []⟩], .write [⟨false, "b c".toList, []⟩],
          .write [⟨false, "%z".toList, []⟩], .update [⟨false, "z".toList, []⟩], .delete],
        redisvFormatCommand (c_str (op.cmd (ha_open (Handler.fresh [] 1)
          "./db/t".toList).2)) ≠ .undefined) ∧
    ∃ h2 w2,
      run_ops [.write [⟨false, "a".toList, []⟩], .write [⟨false, "b c".toList, []⟩],
          .write [⟨false, "%z".toList, []⟩], .update [⟨false, "z".toList, []⟩], .delete]
        (ha_open (Handler.fresh [] 1) "./db/t".toList).2 (World.single "t".toList []) =
        some (h2, w2) ∧
      h2.table_name = "t".toList ∧
      ∃ cmds, w2.log = cmds ∧ cmds.length ≤ 5 ∧ ∀ argv ∈ cmds, argv[1]? = some "t".toList := by
  refine ⟨⟨by decide, by decide⟩, ?_⟩
  have hg : get_table_name "./db/t".toList = "t".toList := by decide
  obtain ⟨_, hall, hdef⟩ := C20_table_name_not_mutated "./db/t".toList (Handler.fresh [] 1)
    (World.single "t".toList [])
    [.write [⟨false, "a".toList, []⟩], .write [⟨false, "b c".toList, []⟩],
      .write [⟨false, "%z".toList, []⟩], .update [⟨false, "z".toList, []⟩], .delete]
  obtain ⟨h2, w2, hr⟩ := hdef (by decide)
  obtain ⟨ht, hkey⟩ := hall h2 w2 hr
  obtain ⟨cmds, hlog, hlen, hk⟩ := hkey (by decide)
  rw [hg] at ht hk
  exact ⟨h2, w2, hr, ht, cmds, by simpa [World.single] using hlog, hlen, hk⟩

end HaRedis
